import Mathlib

/-
Verification of the `same-same` git diff filter (same-same.py).

Strings are modelled as lists of characters (`Str`).  Every definition in the
first half of this file is a direct translation of a function, regular
expression, or code block of same-same.py; the source location is named in
each doc comment.  Python `while` loops that walk indices are rendered as
fuel-indexed structural recursions so that all definitions compute inside the
kernel; the fuel chosen is always provably sufficient.
-/

abbrev Str := List Char

def ESC : Char := '\x1b'

/-- Body of `sgr_pat = re.compile(r'\x1B\[[0-9;]*m')`: after `ESC [`, the
regex greedily consumes a run of digits and semicolons and then requires the
terminator `m`.  Returns the remainder of the string after the match. -/
def matchSGRBody : Str → Option Str
  | [] => none
  | c :: rest =>
    if c = 'm' then some rest
    else if c.isDigit ∨ c = ';' then matchSGRBody rest
    else none

/-- `sgr_pat` matched at the start of the string. -/
def matchSGR : Str → Option Str
  | c1 :: c2 :: rest => if c1 = ESC ∧ c2 = '[' then matchSGRBody rest else none
  | _ => none

/-- The scan performed by `sgr_pat.sub('', s)` (same-same.py line 57): find
leftmost non-overlapping matches, delete each, copy all other characters.
Fuel-indexed; a match consumes at least three characters and a non-match one,
so fuel equal to the string length always suffices. -/
def stripGo : Nat → Str → Str
  | 0, s => s
  | _ + 1, [] => []
  | fuel + 1, c :: t =>
    match matchSGR (c :: t) with
    | some r => stripGo fuel r
    | none => c :: stripGo fuel t

/-- `sgr_pat.sub('', s)`: remove every SGR color escape sequence. -/
def stripSGR (s : Str) : Str := stripGo s.length s

theorem matchSGRBody_length : ∀ {s r : Str}, matchSGRBody s = some r → r.length < s.length := by
  intro s
  induction s with
  | nil => intro r h; simp [matchSGRBody] at h
  | cons c t ih =>
    intro r h
    simp only [matchSGRBody] at h
    by_cases hm : c = 'm'
    · simp [hm] at h; subst h; simp
    · by_cases hd : c.isDigit ∨ c = ';'
      · simp [hm, hd] at h
        exact Nat.lt_trans (ih h) (by simp)
      · simp [hm, hd] at h

theorem matchSGR_length : ∀ {s r : Str}, matchSGR s = some r → r.length + 3 ≤ s.length := by
  intro s r h
  match s with
  | [] => simp [matchSGR] at h
  | [c] => simp [matchSGR] at h
  | c1 :: c2 :: rest =>
    simp only [matchSGR] at h
    by_cases hc : c1 = ESC ∧ c2 = '['
    · simp [hc] at h
      have := matchSGRBody_length h
      simp only [List.length_cons]
      omega
    · simp [hc] at h

theorem stripGo_fuel : ∀ (f1 f2 : Nat) (s : Str), s.length ≤ f1 → s.length ≤ f2 →
    stripGo f1 s = stripGo f2 s := by
  intro f1
  induction f1 with
  | zero =>
    intro f2 s h1 _
    have hs : s = [] := List.eq_nil_of_length_eq_zero (Nat.le_zero.mp h1)
    subst hs
    cases f2 <;> simp [stripGo]
  | succ f ih =>
    intro f2 s h1 h2
    cases s with
    | nil => cases f2 <;> simp [stripGo]
    | cons c t =>
      cases f2 with
      | zero => simp at h2
      | succ f2' =>
        simp only [stripGo]
        cases hm : matchSGR (c :: t) with
        | some r =>
          have hr := matchSGR_length hm
          simp only [List.length_cons] at h1 h2 hr
          exact ih f2' r (by omega) (by omega)
        | none =>
          simp only [List.length_cons] at h1 h2
          exact congrArg (c :: ·) (ih f2' t (by omega) (by omega))

theorem stripSGR_some {s r : Str} (h : matchSGR s = some r) : stripSGR s = stripSGR r := by
  have h3 := matchSGR_length h
  match s with
  | [] => simp [matchSGR] at h
  | c :: t =>
    show stripGo (c :: t).length (c :: t) = _
    simp only [List.length_cons, stripGo, h]
    exact stripGo_fuel t.length r.length r (by simp at h3; omega) (le_refl _)

theorem stripSGR_cons_none {c : Char} {t : Str} (h : matchSGR (c :: t) = none) :
    stripSGR (c :: t) = c :: stripSGR t := by
  show stripGo (c :: t).length (c :: t) = _
  simp only [List.length_cons, stripGo, h]
  rfl

theorem stripSGR_nil : stripSGR [] = [] := rfl

/-- If a character is not ESC, no SGR match can start at it. -/
theorem matchSGR_cons_ne {c : Char} {t : Str} (h : c ≠ ESC) : matchSGR (c :: t) = none := by
  cases t with
  | nil => simp [matchSGR]
  | cons c2 t2 => simp [matchSGR, h]

/-- A string without ESC is a fixed point of the stripping substitution. -/
theorem stripSGR_of_no_esc : ∀ {s : Str}, ESC ∉ s → stripSGR s = s := by
  intro s
  induction s with
  | nil => exact fun _ => rfl
  | cons c t ih =>
    intro h
    have hc : c ≠ ESC := fun hce => h (by simp [hce])
    rw [stripSGR_cons_none (matchSGR_cons_ne hc)]
    rw [ih (fun hm => h (by simp [hm]))]

/-- Prefixing by an ESC-free string commutes with stripping. -/
theorem stripSGR_append_free : ∀ {p : Str} (l : Str), ESC ∉ p →
    stripSGR (p ++ l) = p ++ stripSGR l := by
  intro p
  induction p with
  | nil => intro l _; rfl
  | cons c t ih =>
    intro l h
    have hc : c ≠ ESC := fun hce => h (by simp [hce])
    simp only [List.cons_append]
    rw [stripSGR_cons_none (matchSGR_cons_ne hc)]
    rw [ih l (fun hm => h (by simp [hm]))]

/-- Consuming a well-formed SGR sequence: the body is digits/semicolons. -/
theorem matchSGRBody_spec : ∀ (body : Str) (l : Str),
    (∀ c ∈ body, c.isDigit ∨ c = ';') → matchSGRBody (body ++ 'm' :: l) = some l := by
  intro body
  induction body with
  | nil => intro l _; simp [matchSGRBody]
  | cons c t ih =>
    intro l h
    have hc : c.isDigit ∨ c = ';' := h c (by simp)
    have hm : c ≠ 'm' := by
      rcases hc with hd | hs
      · intro he; subst he; simp [Char.isDigit] at hd
      · intro he; subst he; simp at hs
    simp only [List.cons_append, matchSGRBody]
    rw [if_neg hm, if_pos hc]
    exact ih l (fun x hx => h x (by simp [hx]))

/-- Stripping deletes a leading well-formed SGR sequence. -/
theorem stripSGR_sgr_prefix (body : Str) (l : Str)
    (h : ∀ c ∈ body, c.isDigit ∨ c = ';') :
    stripSGR (ESC :: '[' :: body ++ 'm' :: l) = stripSGR l := by
  have hm : matchSGR (ESC :: '[' :: body ++ 'm' :: l) = some l := by
    simp [matchSGR, matchSGRBody_spec body l h]
  exact stripSGR_some hm

/-- C3 counterexample input: `ESC [ 3 ESC [ m 4 m`.  The inner complete
sequence `ESC [ m` is removed by the first pass, which re-joins the
surrounding characters into the new complete sequence `ESC [ 3 4 m`. -/
def c3Input : Str := "\x1b[3\x1b[m4m".data

/-- C3: the claim `strip (strip s) = strip s` for every string is false:
on `c3Input` the first pass produces `ESC [ 3 4 m`, which the second pass
deletes entirely. -/
theorem C3_counterexample :
    stripSGR (stripSGR c3Input) ≠ stripSGR c3Input ∧
    stripSGR c3Input = "\x1b[34m".data ∧ stripSGR (stripSGR c3Input) = [] := by
  decide

/-- C3 amended: the stripping substitution is idempotent on every string whose
first-pass output contains no ESC character (in particular on any string whose
escape sequences are well formed and non-interleaved); unrestricted idempotence
fails, see `C3_counterexample`. -/
theorem C3_amended_idempotent (s : Str) (h : ESC ∉ stripSGR s) :
    stripSGR (stripSGR s) = stripSGR s :=
  stripSGR_of_no_esc h

/-- Witness for C3 amended: a concrete colorized string whose stripped form
has no ESC left. -/
theorem C3_amended_witness :
    ESC ∉ stripSGR "\x1b[31mred".data ∧
    stripSGR (stripSGR "\x1b[31mred".data) = stripSGR "\x1b[31mred".data :=
  ⟨by decide, C3_amended_idempotent _ (by decide)⟩

/-! ### Python string helpers used throughout same-same.py -/

/-- Characters stripped by Python `str.strip()` (ASCII model). -/
def isPySpace (c : Char) : Bool :=
  c = ' ' || c = '\t' || c = '\n' || c = '\x0d' || c = '\x0b' || c = '\x0c'

/-- Python `str.strip()`: trim whitespace from both ends. -/
def pstrip (s : Str) : Str :=
  ((s.dropWhile isPySpace).reverse.dropWhile isPySpace).reverse

/-- Python `str.rstrip('\t')` used on captured paths. -/
def rstripTabs (s : Str) : Str := (s.reverse.dropWhile (fun c => c = '\t')).reverse

/-- Decimal digit characters of a natural number (Python `str(n)`). -/
def natStr (n : Nat) : Str := (Nat.repr n).data

/-- Python `sep.join(items)`. -/
def joinSep (sep : Str) : List Str → Str
  | [] => []
  | [x] => x
  | x :: y :: xs => x ++ sep ++ joinSep sep (y :: xs)

/-! ### ANSI color constants (same-same.py lines 375-439) -/

/-- `sgr(*codes)`: Select Graphic Rendition control sequence; the Python
function stringifies each code and joins with semicolons. -/
def sgrS (codes : List Str) : Str :=
  ESC :: '[' :: (joinSep ";".data codes ++ "m".data)

/-- `rgb6(r, g, b)`: index into the 256-color cube. -/
def rgb6 (r g b : Nat) : Nat := (((r * 6) + g) * 6) + b + 16

/-- `gray26(n)`. -/
def gray26 (n : Nat) : Nat := if n = 0 then 16 else if n = 25 then 231 else 231 + n

def TXT : Str := "38;5".data
def BG : Str := "48;5".data

def RST : Str := sgrS []
def ERASE_LINE_F : Str := ESC :: '[' :: "K".data

def C_FILE : Str := sgrS [BG, natStr (rgb6 1 0 1)]
def C_MODE : Str := sgrS [BG, natStr (rgb6 1 0 1)]
def C_LOC : Str := sgrS [BG, natStr (rgb6 0 1 2)]
def C_SNIPPET : Str := sgrS [TXT, natStr (gray26 22)]
def C_DROPPED : Str := sgrS [TXT, natStr (gray26 10)]
def C_REM_LINE : Str := sgrS [BG, natStr (rgb6 1 0 0)]
def C_ADD_LINE : Str := sgrS [BG, natStr (rgb6 0 1 0)]
def C_REM_MOVED : Str := sgrS [TXT, natStr (rgb6 4 2 0)]
def C_ADD_MOVED : Str := sgrS [TXT, natStr (rgb6 2 4 0)]
def C_REM_TOKEN : Str := sgrS [TXT, natStr (rgb6 5 2 3), natStr 1]
def C_ADD_TOKEN : Str := sgrS [TXT, natStr (rgb6 2 5 3), natStr 1]
def C_RST_TOKEN : Str := sgrS [natStr 39, natStr 22]
def C_STRANGE : Str := sgrS [natStr 7]
def C_RST_STRANGE : Str := sgrS [natStr 27]
def C_END : Str := ERASE_LINE_F ++ RST

/-! ### Strange-character highlighting (same-same.py lines 286-289, 345-372) -/

/-- Membership in `strange_char_re`: C0 controls except newline, DEL, C1,
NBSP, soft hyphen. -/
def isStrangeChar (c : Char) : Bool :=
  let n := c.toNat
  n ≤ 0x09 || (0x0B ≤ n && n ≤ 0x1F) || n = 0x7F || (0x80 ≤ n && n ≤ 0x9F) ||
    n = 0xA0 || n = 0xAD

def hexDigitLower (n : Nat) : Char :=
  if n < 10 then Char.ofNat (48 + n) else Char.ofNat (87 + n)

/-- `strange_char_trans_table`: visible name of one strange character
('\\x{:02x}' format, overridden for the named C escapes). -/
def strangeName (c : Char) : Str :=
  if c = '\x00' then "\\0".data
  else if c = '\x07' then "\\a".data
  else if c = '\x08' then "\\b".data
  else if c = '\x0c' then "\\f".data
  else if c = '\x0d' then "\\r".data
  else if c = '\x09' then "\\t".data
  else if c = '\x0b' then "\\v".data
  else ['\\', 'x', hexDigitLower (c.toNat / 16), hexDigitLower (c.toNat % 16)]

/-- Scan loop of `strange_char_pat.sub` in `highlight_strange_chars`: each
maximal run of strange characters is replaced by the inverted-video rendering
of its translated names.  Fuel-indexed (fuel = length suffices). -/
def hsGo : Nat → Str → Str
  | 0, s => s
  | _ + 1, [] => []
  | fuel + 1, c :: t =>
    if isStrangeChar c then
      C_STRANGE ++ ((c :: t.takeWhile isStrangeChar).map strangeName).flatten ++
        C_RST_STRANGE ++ hsGo fuel (t.dropWhile isStrangeChar)
    else c :: hsGo fuel t

/-- `highlight_strange_chars(string)`. -/
def highlightStrange (s : Str) : Str := hsGo s.length s

theorem dropWhile_length_le (p : Char → Bool) : ∀ (l : Str), (l.dropWhile p).length ≤ l.length := by
  intro l
  induction l with
  | nil => simp
  | cons c t ih =>
    by_cases h : p c
    · simp only [List.dropWhile, h]; exact Nat.le_trans ih (by simp)
    · simp [List.dropWhile, h]

/-- A string without strange characters is unchanged by the highlighting. -/
theorem highlightStrange_of_clean : ∀ {s : Str}, (∀ c ∈ s, ¬ isStrangeChar c) →
    highlightStrange s = s := by
  have go : ∀ (fuel : Nat) (s : Str), (∀ c ∈ s, ¬ isStrangeChar c) → hsGo fuel s = s := by
    intro fuel
    induction fuel with
    | zero => intro s _; rfl
    | succ f ih =>
      intro s h
      cases s with
      | nil => rfl
      | cons c t =>
        have hc : ¬ isStrangeChar c := h c (by simp)
        simp only [hsGo]
        rw [if_neg hc, ih t (fun x hx => h x (by simp [hx]))]
  exact fun {s} h => go s.length s h

/-! ### Token pattern (token_pat, same-same.py lines 335-342) -/

/-- Python `\w` for the ASCII model: letters, digits, underscore. -/
def isWordChar (c : Char) : Bool := c.isAlpha || c.isDigit || c = '_'

/-- Which run predicate governs the token starting at `c`, following the
alternatives of `token_pat` in priority order.  The digit alternative is
subsumed by the symbol alternative (digits are word characters); a run of
non-space non-tab whitespace greedily absorbs any following whitespace
(`\s+`); any other character is a singleton token (`none`). -/
def runPred (c : Char) : Option (Char → Bool) :=
  if isWordChar c then some isWordChar
  else if c = ' ' then some (fun d => d = ' ')
  else if c = '\t' then some (fun d => d = '\t')
  else if isPySpace c then some isPySpace
  else none

/-- `token_pat.finditer`: cut a line into its consecutive tokens.
Fuel-indexed (fuel = length suffices: every token is nonempty). -/
def tokGo : Nat → Str → List Str
  | 0, _ => []
  | _ + 1, [] => []
  | fuel + 1, c :: t =>
    match runPred c with
    | some pr => (c :: t.takeWhile pr) :: tokGo fuel (t.dropWhile pr)
    | none => [c] :: tokGo fuel t

def tokenize (s : Str) : List Str := tokGo s.length s

theorem tokGo_fuel : ∀ (f1 f2 : Nat) (s : Str), s.length ≤ f1 → s.length ≤ f2 →
    tokGo f1 s = tokGo f2 s := by
  intro f1
  induction f1 with
  | zero =>
    intro f2 s h1 _
    have hs : s = [] := List.eq_nil_of_length_eq_zero (Nat.le_zero.mp h1)
    subst hs
    cases f2 <;> simp [tokGo]
  | succ f ih =>
    intro f2 s h1 h2
    cases s with
    | nil => cases f2 <;> simp [tokGo]
    | cons c t =>
      cases f2 with
      | zero => simp at h2
      | succ f2' =>
        simp only [tokGo, List.length_cons] at h1 h2 ⊢
        cases hp : runPred c with
        | some pr =>
          have hd := dropWhile_length_le pr t
          exact congrArg ((c :: t.takeWhile pr) :: ·) (ih f2' (t.dropWhile pr) (by omega) (by omega))
        | none =>
          exact congrArg ([c] :: ·) (ih f2' t (by omega) (by omega))

theorem tokenize_cons_run {c : Char} {t : Str} {pr : Char → Bool} (h : runPred c = some pr) :
    tokenize (c :: t) = (c :: t.takeWhile pr) :: tokenize (t.dropWhile pr) := by
  show tokGo (c :: t).length (c :: t) = _
  simp only [List.length_cons, tokGo, h]
  rw [tokGo_fuel t.length (t.dropWhile pr).length (t.dropWhile pr)
    (dropWhile_length_le pr t) (le_refl _)]
  rfl

theorem tokenize_cons_single {c : Char} {t : Str} (h : runPred c = none) :
    tokenize (c :: t) = [c] :: tokenize t := by
  show tokGo (c :: t).length (c :: t) = _
  simp only [List.length_cons, tokGo, h]
  rfl

/-- Tokenizing covers the line exactly: the tokens concatenate back to it. -/
theorem tokenize_join : ∀ (s : Str), (tokenize s).flatten = s := by
  have go : ∀ (n : Nat) (s : Str), s.length ≤ n → (tokenize s).flatten = s := by
    intro n
    induction n with
    | zero =>
      intro s h
      have hs : s = [] := List.eq_nil_of_length_eq_zero (Nat.le_zero.mp h)
      subst hs; rfl
    | succ m ih =>
      intro s h
      cases s with
      | nil => rfl
      | cons c t =>
        simp only [List.length_cons] at h
        cases hp : runPred c with
        | some pr =>
          rw [tokenize_cons_run hp]
          simp only [List.flatten_cons]
          rw [ih (t.dropWhile pr) (Nat.le_trans (dropWhile_length_le pr t) (by omega))]
          simp [List.takeWhile_append_dropWhile]
        | none =>
          rw [tokenize_cons_single hp]
          simp only [List.flatten_cons]
          rw [ih t (by omega)]
          rfl
  exact fun s => go s.length s (le_refl _)

/-- Every token is nonempty and made only of characters of the line. -/
theorem tokenize_mem : ∀ (s : Str) (tok : Str), tok ∈ tokenize s →
    tok ≠ [] ∧ ∀ c ∈ tok, c ∈ s := by
  have go : ∀ (n : Nat) (s : Str), s.length ≤ n → ∀ tok ∈ tokenize s,
      tok ≠ [] ∧ ∀ c ∈ tok, c ∈ s := by
    intro n
    induction n with
    | zero =>
      intro s h tok htok
      have hs : s = [] := List.eq_nil_of_length_eq_zero (Nat.le_zero.mp h)
      subst hs; simp [tokenize, tokGo] at htok
    | succ m ih =>
      intro s h tok htok
      cases s with
      | nil => simp [tokenize, tokGo] at htok
      | cons c t =>
        simp only [List.length_cons] at h
        cases hp : runPred c with
        | some pr =>
          rw [tokenize_cons_run hp] at htok
          rcases List.mem_cons.mp htok with heq | hmem
          · subst heq
            refine ⟨by simp, ?_⟩
            intro x hx
            rcases List.mem_cons.mp hx with rfl | hx2
            · simp
            · exact List.mem_cons_of_mem _ ((List.takeWhile_sublist pr).mem hx2)
          · have := ih (t.dropWhile pr) (Nat.le_trans (dropWhile_length_le pr t) (by omega)) tok hmem
            exact ⟨this.1, fun x hx => List.mem_cons_of_mem _ ((List.dropWhile_sublist pr).mem (this.2 x hx))⟩
        | none =>
          rw [tokenize_cons_single hp] at htok
          rcases List.mem_cons.mp htok with heq | hmem
          · subst heq; exact ⟨by simp, by intro x hx; simp at hx; simp [hx]⟩
          · have := ih t (by omega) tok hmem
            exact ⟨this.1, fun x hx => List.mem_cons_of_mem _ (this.2 x hx)⟩
  exact fun s => go s.length s (le_refl _)

/-! ### Line classifier: diff_pat (same-same.py lines 305-332) -/

/-- The named groups of `diff_pat`, in source order. -/
inductive Kind where
  | empty | commit | author | date | diff | idx | old | new | loc | ctx | rem | add | meta | other
deriving DecidableEq, Repr, Inhabited

/-- `(?P<empty> $) | (?P<commit> commit [0-9a-z]{40}) | ...` helpers. -/
def isHexLowerOrDigit (c : Char) : Bool := c.isDigit || ('a' ≤ c && c ≤ 'z')

def commitMatch (s : Str) : Bool :=
  ("commit ".data).isPrefixOf s &&
    (let t := (s.drop 7).take 40
     t.length = 40 && t.all isHexLowerOrDigit)

def metaPrefixes : List Str :=
  ["old mode", "new mode", "deleted file mode", "new file mode", "copy from",
   "copy to", "rename from", "rename to", "similarity index",
   "dissimilarity index"].map String.data

def spanDigits (s : Str) : Str × Str := (s.takeWhile Char.isDigit, s.dropWhile Char.isDigit)

def dropPre (p s : Str) : Option Str :=
  if p.isPrefixOf s then some (s.drop p.length) else none

/-- The optional `,\d+` length field of a hunk header.  If a comma is present
it must be followed by at least one digit (the regex backtracks to the
no-group alternative, which then fails on the comma). -/
def skipLen (s : Str) : Option Str :=
  match s with
  | ',' :: t => let (d, r) := spanDigits t; if d = [] then none else some r
  | _ => some s

/-- The `loc` branch: `@@ -\d+(,\d+)? \+\d+(,\d+)? @@ ?(.*)`.  Returns the
matched digit substrings for `old_num` and `new_num` plus the snippet. -/
def parseLoc (s : Str) : Option (Str × Str × Str) :=
  match dropPre "@@ -".data s with
  | none => none
  | some s1 =>
    let (od, s2) := spanDigits s1
    if od = [] then none else
    match skipLen s2 with
    | none => none
    | some s3 =>
      match dropPre " +".data s3 with
      | none => none
      | some s4 =>
        let (nd, s5) := spanDigits s4
        if nd = [] then none else
        match skipLen s5 with
        | none => none
        | some s6 =>
          match dropPre " @@".data s6 with
          | none => none
          | some s7 =>
            match s7 with
            | ' ' :: r => some (od, nd, r)
            | r => some (od, nd, r)

/-- `int(...)` on a matched digit run. -/
def digsToNat (s : Str) : Nat := s.foldl (fun a c => a * 10 + (c.toNat - 48)) 0

/-- `diff_pat.match(plain_text).lastgroup`: ordered alternation, first match
wins; `other` is the catch-all. -/
def classify (s : Str) : Kind :=
  if s = [] then .empty
  else if commitMatch s then .commit
  else if ("Author:".data).isPrefixOf s then .author
  else if ("Date:".data).isPrefixOf s then .date
  else if ("diff --git".data).isPrefixOf s then .diff
  else if ("index".data).isPrefixOf s then .idx
  else if ("--- ".data).isPrefixOf s && decide (4 < s.length) then .old
  else if ("+++ ".data).isPrefixOf s && decide (4 < s.length) then .new
  else if (parseLoc s).isSome then .loc
  else
    match s with
    | ' ' :: _ => .ctx
    | '-' :: _ => .rem
    | '+' :: _ => .add
    | _ => if metaPrefixes.any (fun p => p.isPrefixOf s) then .meta else .other

/-- `graph_pat.match(text).end()`: length of the leading run of
merge-graph-drawing characters. -/
def isGraphChar (c : Char) : Bool := c = ' ' || c = '/' || c = '*' || c = '|' || c = '\\'

def graphEnd (s : Str) : Nat := (s.takeWhile isGraphChar).length

/-- `vscode_path(path)` (same-same.py lines 442-445). -/
def vscode_path (path : Str) : Str :=
  if '/' ∈ path ∨ '<' ∈ path ∨ '>' ∈ path then path else "./".data ++ path

/-- A classified input line: the `DiffLine` constructor data (kind, raw rich
text, color-stripped text) together with the capture-group fields that later
stages read from the stored `Match` object. -/
structure DLine where
  kind : Kind
  rich : Str
  plain : Str
  locOldNum : Int := 0
  locNewNum : Int := 0
  locNewNumStr : Str := []
  locSnippet : Str := []
  pathField : Str := []
deriving DecidableEq, Repr, Inhabited

/-- Build the `DiffLine` for one raw input line, as `main` does: strip colors,
classify, and retain the capture groups the later stages use. -/
def mkDLine (richS : String) : DLine :=
  let rich := richS.data
  let plain := stripSGR rich
  let k := classify plain
  match k with
  | .loc =>
    match parseLoc plain with
    | some (od, nd, snip) =>
      { kind := k, rich := rich, plain := plain,
        locOldNum := (digsToNat od : Int), locNewNum := (digsToNat nd : Int),
        locNewNumStr := nd, locSnippet := snip }
    | none => { kind := k, rich := rich, plain := plain }
  | .old => { kind := k, rich := rich, plain := plain, pathField := plain.drop 4 }
  | .new => { kind := k, rich := rich, plain := plain, pathField := plain.drop 4 }
  | _ => { kind := k, rich := rich, plain := plain }

/-! ### Number reconstruction: the accumulation loop of `handle_file_lines`
(same-same.py lines 85-141) -/

/-- The fields of a `DiffLine` after the accumulation loop has enriched it
(text, line numbers, chunk id). -/
structure SLine where
  kind : Kind
  rich : Str
  plain : Str
  text : Str := []
  oldNum : Int := 0
  newNum : Int := 0
  chunkIdx : Nat := 0
  isSrc : Bool := false
  locNewNumStr : Str := []
  locSnippet : Str := []
deriving DecidableEq, Repr, Inhabited

/-- Insertion-ordered dictionary lookup (`d.get(k)` / `k in d`): the value of
the first (and, by construction, only) entry with this key. -/
def lookupA : List (Str × Option Int) → Str → Option (Option Int)
  | [], _ => none
  | p :: rest, k => if p.1 = k then some p.2 else lookupA rest k

/-- In-place value update for an existing key, preserving insertion order. -/
def setA (d : List (Str × Option Int)) (k : Str) (v : Option Int) :
    List (Str × Option Int) :=
  d.map (fun p => if p.1 = k then (p.1, v) else p)

/-- `insert_unique_line(d, line, idx)` (same-same.py lines 222-226). -/
def insert_unique_line (d : List (Str × Option Int)) (line : Str) (idx : Int) :
    List (Str × Option Int) :=
  let body := pstrip line
  if (lookupA d body).isSome then setA d body none else d ++ [(body, some idx)]

def lookupI : List (Int × Str) → Int → Option Str
  | [], _ => none
  | p :: rest, k => if p.1 = k then some p.2 else lookupI rest k

/-- The mutable locals of `handle_file_lines`'s accumulation loop.  The
`old_lines`/`new_lines` dicts store each line's text (the only field the move
detector later reads from them). -/
structure AccState where
  oldCtxNums : List Int := []
  newCtxNums : List Int := []
  oldLines : List (Int × Str) := []
  newLines : List (Int × Str) := []
  oldUniques : List (Str × Option Int) := []
  newUniques : List (Str × Option Int) := []
  oldNum : Int := 0
  newNum : Int := 0
  chunkIdx : Nat := 0
  isPrevAddRem : Bool := false
  oldPath : Str := "<OLD_PATH>".data
  newPath : Str := "<NEW_PATH>".data
deriving Repr, Inhabited

def initAcc : AccState := {}

def mkPassSLine (dl : DLine) : SLine :=
  { kind := dl.kind, rich := dl.rich, plain := dl.plain,
    locNewNumStr := dl.locNewNumStr, locSnippet := dl.locSnippet }

/-- One iteration of the accumulation loop (same-same.py lines 99-141).
Failed `assert` statements become `Except.error`. -/
def accumStep (st0 : AccState) (dl : DLine) : Except String (AccState × SLine) :=
  let isAddRem := dl.kind = .rem ∨ dl.kind = .add
  let st1 := { st0 with
    chunkIdx := if ¬ st0.isPrevAddRem ∧ isAddRem then st0.chunkIdx + 1 else st0.chunkIdx,
    isPrevAddRem := isAddRem }
  if dl.kind = .ctx ∨ dl.kind = .rem ∨ dl.kind = .add then
    let text := dl.plain.drop 1
    let cIdx := if dl.kind = .ctx then 0 else st1.chunkIdx
    let st2 :=
      if dl.kind = .rem then
        { st1 with oldUniques := insert_unique_line st1.oldUniques text st1.oldNum }
      else if dl.kind = .add then
        { st1 with newUniques := insert_unique_line st1.newUniques text st1.newNum }
      else st1
    -- `if kind in ('ctx', 'rem')`: record under the old counter.
    let oldRes : Except String (AccState × Int) :=
      if dl.kind = .ctx ∨ dl.kind = .rem then
        if (lookupI st2.oldLines st2.oldNum).isSome then
          .error "assert failed: old_num in old_lines"
        else if st2.oldNum ∈ st2.oldCtxNums then
          .error "assert failed: old_num in old_ctx_nums"
        else
          .ok ({ st2 with
                  oldLines := st2.oldLines ++ [(st2.oldNum, text)],
                  oldCtxNums := st2.oldCtxNums ++ [st2.oldNum],
                  oldNum := st2.oldNum + 1 }, st2.oldNum)
      else .ok (st2, 0)
    match oldRes with
    | .error e => .error e
    | .ok (st3, oNum) =>
      -- `if kind in ('ctx', 'add')`: record under the new counter.
      let newRes : Except String (AccState × Int) :=
        if dl.kind = .ctx ∨ dl.kind = .add then
          if (lookupI st3.newLines st3.newNum).isSome then
            .error "assert failed: new_num in new_lines"
          else if st3.newNum ∈ st3.newCtxNums then
            .error "assert failed: new_num in new_ctx_nums"
          else
            .ok ({ st3 with
                    newLines := st3.newLines ++ [(st3.newNum, text)],
                    newCtxNums := st3.newCtxNums ++ [st3.newNum],
                    newNum := st3.newNum + 1 }, st3.newNum)
        else .ok (st3, 0)
      match newRes with
      | .error e => .error e
      | .ok (st4, nNum) =>
        .ok (st4, { kind := dl.kind, rich := dl.rich, plain := dl.plain,
                    text := text, oldNum := oNum, newNum := nNum,
                    chunkIdx := cIdx, isSrc := true })
  else if dl.kind = .loc then
    -- `o = int(match['old_num']); if o > 0: assert o > old_num; old_num = o`
    let o := dl.locOldNum
    let stepOld : Except String AccState :=
      if o > 0 then
        if o > st1.oldNum then .ok { st1 with oldNum := o }
        else .error "assert failed: hunk old start not greater than counter"
      else .ok st1
    match stepOld with
    | .error e => .error e
    | .ok stA =>
      let n := dl.locNewNum
      if n > 0 then
        if n > stA.newNum then .ok ({ stA with newNum := n }, mkPassSLine dl)
        else .error "assert failed: hunk new start not greater than counter"
      else .ok (stA, mkPassSLine dl)
  else if dl.kind = .old then
    .ok ({ st1 with oldPath := vscode_path (rstripTabs dl.pathField) }, mkPassSLine dl)
  else if dl.kind = .new then
    .ok ({ st1 with newPath := vscode_path (rstripTabs dl.pathField) }, mkPassSLine dl)
  else
    .ok (st1, mkPassSLine dl)

/-- `for line in lines: ...` — the whole accumulation pass. -/
def accumLines : AccState → List DLine → Except String (AccState × List SLine)
  | st, [] => .ok (st, [])
  | st, dl :: dls =>
    match accumStep st dl with
    | .error e => .error e
    | .ok (st1, sl) =>
      match accumLines st1 dls with
      | .error e => .error e
      | .ok (st2, sls) => .ok (st2, sl :: sls)

/-! ### Move detection (same-same.py lines 143-167) -/

/-- `diff_lines_match(old_idx, new_idx)` (lines 145-148): a pairing is ruled
out when either index is in the corresponding `*_ctx_nums` set; a failed dict
lookup (`KeyError`) also returns False. -/
def diff_lines_match (st : AccState) (oldIdx newIdx : Int) : Bool :=
  if oldIdx ∈ st.oldCtxNums ∨ newIdx ∈ st.newCtxNums then false
  else
    match lookupI st.oldLines oldIdx, lookupI st.newLines newIdx with
    | some ot, some nt => pstrip ot == pstrip nt
    | _, _ => false

/-- The backward-expansion `while` loop.  A successful match needs `po - 1`
to be a key of `old_lines` and the visited old indices strictly decrease, so
the loop performs at most `|old_lines|` iterations; the fuel passed by
`computeMoved` therefore never runs out. -/
def expandBack (st : AccState) : Nat → Int → Int → Int × Int
  | 0, po, pn => (po, pn)
  | fuel + 1, po, pn =>
    if diff_lines_match st (po - 1) (pn - 1) then expandBack st fuel (po - 1) (pn - 1)
    else (po, pn)

/-- The forward-expansion `while` loop (same bound argument). -/
def expandFwd (st : AccState) : Nat → Int → Int → Int × Int
  | 0, eo, en => (eo, en)
  | fuel + 1, eo, en =>
    if diff_lines_match st eo en then expandFwd st fuel (eo + 1) (en + 1)
    else (eo, en)

/-- Python `range(a, b)` over integers. -/
def intRange (a b : Int) : List Int := (List.range (b - a).toNat).map (fun k => a + k)

/-- One iteration of the seed loop: skip entries without a concrete number on
both sides (`if new_idx is None: continue` / `old_uniques.get(body)`),
otherwise expand around the seed and accumulate the touched ranges. -/
def movedStep (st : AccState) (acc : List Int × List Int) (bi : Str × Option Int) :
    List Int × List Int :=
  match bi.2 with
  | none => acc
  | some newIdx =>
    match lookupA st.oldUniques bi.1 with
    | some (some oldIdx) =>
      let po := expandBack st (st.oldLines.length + 1) oldIdx newIdx
      let eo := expandFwd st (st.oldLines.length + 1) (oldIdx + 1) (newIdx + 1)
      (acc.1 ++ intRange po.1 eo.1, acc.2 ++ intRange po.2 eo.2)
    | _ => acc

/-- The seed loop (lines 150-167): for every body unique on the added side
whose body is also unique on the removed side, expand and accumulate the
touched positions into the old/new moved sets. -/
def computeMoved (st : AccState) : List Int × List Int :=
  st.newUniques.foldl (movedStep st) ([], [])

/-! ### Chunk formation and token-level diffing
(same-same.py lines 169-283) -/

/-- `itertools.groupby`: maximal runs of equal keys, in order. -/
def groupRuns {α κ : Type} [BEq κ] (key : α → κ) : List α → List (κ × List α)
  | [] => []
  | x :: xs =>
    match groupRuns key xs with
    | [] => [(key x, [x])]
    | (k, g) :: rest =>
      if key x == k then (k, x :: g) :: rest else (key x, [x]) :: (k, g) :: rest

/-- `chunk_key(line)` (lines 175-176). -/
def chunkKey (omoved nmoved : List Int) (l : SLine) : Bool × Nat × Bool :=
  (l.isSrc, l.chunkIdx, decide (l.oldNum ∈ omoved ∨ l.newNum ∈ nmoved))

/-- Tokens of the second and later lines of a chunk, each preceded by the
explicit newline token (`if i: tokens.append('\n')`). -/
def tokenizeRest : List Str → List Str
  | [] => []
  | t :: ts => ['\n'] :: (tokenize t ++ tokenizeRest ts)

/-- `tokenize_difflines(lines)` (lines 258-264), applied to the line texts. -/
def tokenize_difflines : List Str → List Str
  | [] => []
  | t :: ts => tokenize t ++ tokenizeRest ts

/-- `frags[line_idx].append(...)`: append to the fragments of line `i`.
Out-of-range indices leave the list unchanged (with contract-respecting
matching blocks the index never leaves the range, see `MatcherOK`). -/
def appendAt (frags : List Str) (i : Nat) (s : Str) : List Str :=
  frags.set i (frags.getD i [] ++ s)

/-- Python slice `tokens[pos:fin]`. -/
def sliceL (xs : List Str) (p q : Nat) : List Str := (xs.drop p).take (q - p)

/-- The loop body of `append_frags` over an explicit token slice. -/
def appendGo (frags : List Str) (lineIdx : Nat) (hl : Str) : List Str → List Str × Nat
  | [] => (frags, lineIdx)
  | tok :: rest =>
    if tok = ['\n'] then appendGo frags (lineIdx + 1) hl rest
    else appendGo (appendAt frags lineIdx (hl ++ highlightStrange tok)) lineIdx hl rest

/-- `append_frags(frags, tokens, line_idx, pos, end, highlight)`
(lines 275-283). -/
def append_frags (frags : List Str) (tokens : List Str) (lineIdx pos fin : Nat)
    (hl : Str) : List Str × Nat :=
  appendGo frags lineIdx hl (sliceL tokens pos fin)

/-- The per-side part of the matching-blocks loop of `add_token_diffs`
(lines 243-251).  The Python loop interleaves both sides in a single pass,
but the removed-side state (r_frags, r_line_idx, r_d) and the added-side
state (a_frags, a_line_idx, a_d) never interact, so the loop is rendered as
one walk per side over that side's block projections. -/
def walkSide (frags : List Str) (tokens : List Str) (lineIdx d : Nat) (hl : Str) :
    List (Nat × Nat) → List Str
  | [] => frags
  | (p, n) :: rest =>
    let r1 := append_frags frags tokens lineIdx d p hl
    let r2 := append_frags r1.1 tokens r1.2 p (p + n) C_RST_TOKEN
    walkSide r2.1 tokens r2.2 (p + n) hl rest

/-- `add_token_diffs(rem_lines, add_lines)` (lines 229-255), parameterized by
the external `difflib.SequenceMatcher.get_matching_blocks` oracle
(`matcher`); returns the rewritten text of every removed and added line. -/
def add_token_diffs (matcher : List Str → List Str → List (Nat × Nat × Nat))
    (remTexts addTexts : List Str) : List Str × List Str :=
  let r_tokens := tokenize_difflines remTexts
  let a_tokens := tokenize_difflines addTexts
  let blocks := matcher r_tokens a_tokens
  (walkSide (remTexts.map (fun _ => [])) r_tokens 0 0 C_REM_TOKEN
      (blocks.map (fun b => (b.1, b.2.2))),
   walkSide (addTexts.map (fun _ => [])) a_tokens 0 0 C_ADD_TOKEN
      (blocks.map (fun b => (b.2.1, b.2.2))))

/-- Write the rewritten texts back onto the chunk's lines
(`for rem_line, frags in zip(rem_lines, r_frags): rem_line.text = ...`);
removed lines are the ones with a truthy `old_num`, added lines the ones with
a truthy `new_num`, consumed in order. -/
def applyNewTexts : List SLine → List Str → List Str → List SLine
  | [], _, _ => []
  | l :: ls, rts, ats =>
    if l.oldNum ≠ 0 then
      match rts with
      | t :: rts2 => { l with text := t } :: applyNewTexts ls rts2 ats
      | [] => l :: applyNewTexts ls [] ats
    else if l.newNum ≠ 0 then
      match ats with
      | t :: ats2 => { l with text := t } :: applyNewTexts ls rts ats2
      | [] => l :: applyNewTexts ls rts []
    else l :: applyNewTexts ls rts ats

/-- Processing of one groupby chunk (lines 178-188): token-diff a non-moved
rem/add chunk, otherwise highlight strange characters in source lines. -/
def processGroup (matcher : List Str → List Str → List (Nat × Nat × Nat))
    (g : (Bool × Nat × Bool) × List SLine) : List SLine :=
  let isSrc := g.1.1
  let cIdx := g.1.2.1
  let isMoved := g.1.2.2
  let chunk := g.2
  if cIdx ≠ 0 ∧ ¬ isMoved then
    let remL := chunk.filter (fun l => l.oldNum ≠ 0)
    let addL := chunk.filter (fun l => l.newNum ≠ 0)
    let texts := add_token_diffs matcher (remL.map (fun l => l.text))
      (addL.map (fun l => l.text))
    applyNewTexts chunk texts.1 texts.2
  else if isSrc then chunk.map (fun l => { l with text := highlightStrange l.text })
  else chunk

/-! ### Rendering (same-same.py lines 190-219) -/

def kindName : Kind → String
  | .empty => "empty" | .commit => "commit" | .author => "author" | .date => "date"
  | .diff => "diff" | .idx => "idx" | .old => "old" | .new => "new" | .loc => "loc"
  | .ctx => "ctx" | .rem => "rem" | .add => "add" | .meta => "meta" | .other => "other"

/-- The per-line `print` dispatch of the output loop.  Each handled kind
emits exactly the lines Python prints (dropped kinds emit none unless
`interactive`); the trailing `else` branch raises. -/
def renderLine (interactive : Bool) (oldPath newPath : Str) (omoved nmoved : List Int)
    (l : SLine) : Except String (List Str) :=
  match l.kind with
  | .ctx => .ok [l.text]
  | .rem =>
    .ok [C_REM_LINE ++ (if l.oldNum ∈ omoved then C_REM_MOVED else []) ++ l.text ++ C_END]
  | .add =>
    .ok [C_ADD_LINE ++ (if l.newNum ∈ nmoved then C_ADD_MOVED else []) ++ l.text ++ C_END]
  | .loc =>
    let s := if l.locSnippet ≠ [] then " ".data ++ C_SNIPPET else []
    .ok [C_LOC ++ newPath ++ ":".data ++ l.locNewNumStr ++ ":".data ++ s ++
      l.locSnippet ++ C_END]
  | .diff =>
    let msg := if oldPath = newPath then newPath else oldPath ++ " -> ".data ++ newPath
    .ok [C_FILE ++ msg ++ ":".data ++ C_END]
  | .meta => .ok [C_MODE ++ newPath ++ ":".data ++ RST ++ " ".data ++ l.rich]
  | .idx | .old | .new =>
    .ok (if interactive then [C_DROPPED ++ l.plain ++ RST] else [])
  | .empty | .other => .ok [l.rich]
  | k => .error ("unhandled kind: " ++ kindName k)

def renderLines (interactive : Bool) (oldPath newPath : Str) (omoved nmoved : List Int) :
    List SLine → Except String (List Str)
  | [] => .ok []
  | l :: ls =>
    match renderLine interactive oldPath newPath omoved nmoved l with
    | .error e => .error e
    | .ok r =>
      match renderLines interactive oldPath newPath omoved nmoved ls with
      | .error e => .error e
      | .ok rs => .ok (r ++ rs)

/-- `handle_file_lines(lines, interactive)` (same-same.py lines 73-219):
skip detection, accumulation, move detection, chunking, token diffing and
rendering of one file block.  Returns the printed lines. -/
def handleFileLines (matcher : List Str → List Str → List (Nat × Nat × Nat))
    (interactive : Bool) (lines : List DLine) : Except String (List Str) :=
  match lines with
  | [] => .ok []
  | first :: _ =>
    if (first.kind ≠ .diff ∧ first.kind ≠ .loc) ∨ 0 < graphEnd first.plain then
      .ok (lines.map (fun l => l.rich))
    else
      match accumLines initAcc lines with
      | .error e => .error e
      | .ok (st, slines) =>
        let moved := computeMoved st
        let groups := groupRuns (chunkKey moved.1 moved.2) slines
        let outLines := (groups.map (processGroup matcher)).flatten
        renderLines interactive st.oldPath st.newPath moved.1 moved.2 outLines

/-- The `get_matching_blocks` result of `difflib.SequenceMatcher` whenever
the two token streams share no anchorable matching token: just the sentinel
block `(len(a), len(b), 0)`. -/
def sentinelMatcher (a b : List Str) : List (Nat × Nat × Nat) := [(a.length, b.length, 0)]

def exceptOk {ε α : Type} : Except ε α → Bool
  | .ok _ => true
  | .error _ => false

/-! ### C4: hunk-header counter resets -/

/-- C4 failing block: a new-file hunk `@@ -0,0 +1,2 @@` declares old start 0. -/
def c4Block : List DLine :=
  [mkDLine "diff --git a/f b/f", mkDLine "@@ -0,0 +1,2 @@", mkDLine "+x", mkDLine "+y"]

/-- C4 counterexample: this hunk header declares old start 0, the old counter
at that point is 0, and 0 is not strictly greater than 0 — yet number
reconstruction of the block succeeds instead of failing with a diagnostic:
the code applies the strictly-greater assertion only when the declared value
is positive (`if o > 0`). -/
theorem C4_counterexample :
    exceptOk (accumLines initAcc c4Block) = true ∧
    (c4Block.getD 1 default).kind = Kind.loc ∧
    (c4Block.getD 1 default).locOldNum = 0 ∧
    ((accumLines initAcc (c4Block.take 1)).toOption.map (fun p => p.1.oldNum)) = some 0 ∧
    ¬ ((0 : Int) > 0) := by
  decide

/-- C4 amended: on a hunk header, a positive declared start value resets the
corresponding counter when strictly greater than it and aborts reconstruction
otherwise; a declared value of zero (as produced for new/deleted-file hunks)
is ignored — the counter is left unchanged and no failure occurs. -/
theorem C4_amended_reset_rule (st : AccState) (dl : DLine) (hk : dl.kind = Kind.loc) :
    (0 < dl.locOldNum → dl.locOldNum ≤ st.oldNum →
       exceptOk (accumStep st dl) = false) ∧
    (0 < dl.locNewNum → dl.locNewNum ≤ st.newNum →
       st.oldNum < dl.locOldNum ∨ dl.locOldNum ≤ 0 →
       exceptOk (accumStep st dl) = false) ∧
    (∀ st1 sl, accumStep st dl = .ok (st1, sl) →
       st1.oldNum = (if 0 < dl.locOldNum then dl.locOldNum else st.oldNum) ∧
       st1.newNum = (if 0 < dl.locNewNum then dl.locNewNum else st.newNum)) := by
  refine ⟨?_, ?_, ?_⟩
  · intro h1 h2
    simp [accumStep, hk, exceptOk]
    rw [if_pos h1, if_neg (show ¬ st.oldNum < dl.locOldNum by omega)]
  · intro h1 h2 h3
    simp [accumStep, hk, exceptOk]
    by_cases ho : 0 < dl.locOldNum
    · rw [if_pos ho, if_pos (by omega)]
      simp [h1, show ¬ st.newNum < dl.locNewNum by omega]
    · rw [if_neg ho]
      simp [h1, show ¬ st.newNum < dl.locNewNum by omega]
  · intro st1 sl h
    simp [accumStep, hk] at h
    by_cases ho : 0 < dl.locOldNum
    · by_cases ho2 : st.oldNum < dl.locOldNum
      · rw [if_pos ho, if_pos ho2] at h
        by_cases hn : 0 < dl.locNewNum
        · by_cases hn2 : st.newNum < dl.locNewNum
          · simp [hn, hn2, Prod.ext_iff] at h
            rw [if_pos ho, if_pos hn, ← h.1]
            exact ⟨rfl, rfl⟩
          · simp [hn, hn2] at h
        · simp [hn, Prod.ext_iff] at h
          rw [if_pos ho, if_neg hn, ← h.1]
          exact ⟨rfl, rfl⟩
      · simp [ho, ho2] at h
    · rw [if_neg ho] at h
      by_cases hn : 0 < dl.locNewNum
      · by_cases hn2 : st.newNum < dl.locNewNum
        · simp [hn, hn2, Prod.ext_iff] at h
          rw [if_neg ho, if_pos hn, ← h.1]
          exact ⟨rfl, rfl⟩
        · simp [hn, hn2] at h
      · simp [hn, Prod.ext_iff] at h
        rw [if_neg ho, if_neg hn, ← h.1]
        exact ⟨rfl, rfl⟩

/-- Witness for C4 amended: a hunk header declaring old start 3 while the old
counter is 5 aborts reconstruction. -/
theorem C4_amended_witness :
    exceptOk (accumStep { initAcc with oldNum := 5 } (mkDLine "@@ -3,1 +7,1 @@")) = false :=
  (C4_amended_reset_rule { initAcc with oldNum := 5 } (mkDLine "@@ -3,1 +7,1 @@")
    (by decide)).1 (by decide) (by decide)

/-- Everything later invariant proofs need to know about one successful
accumulation step. -/
structure StepSpec (st : AccState) (dl : DLine) (st1 : AccState) (sl : SLine) : Prop where
  kindEq : sl.kind = dl.kind
  oldMono : st.oldNum ≤ st1.oldNum
  newMono : st.newNum ≤ st1.newNum
  oldAssigned : sl.kind = Kind.ctx ∨ sl.kind = Kind.rem →
    sl.oldNum = st.oldNum ∧ st1.oldNum = st.oldNum + 1
  oldSkipped : ¬ (sl.kind = Kind.ctx ∨ sl.kind = Kind.rem) → sl.oldNum = 0
  newAssigned : sl.kind = Kind.ctx ∨ sl.kind = Kind.add →
    sl.newNum = st.newNum ∧ st1.newNum = st.newNum + 1
  newSkipped : ¬ (sl.kind = Kind.ctx ∨ sl.kind = Kind.add) → sl.newNum = 0
  remUniq : sl.kind = Kind.rem →
    st1.oldUniques = insert_unique_line st.oldUniques sl.text st.oldNum
  remUniqNe : sl.kind ≠ Kind.rem → st1.oldUniques = st.oldUniques
  addUniq : sl.kind = Kind.add →
    st1.newUniques = insert_unique_line st.newUniques sl.text st.newNum
  addUniqNe : sl.kind ≠ Kind.add → st1.newUniques = st.newUniques
  keysOld : (∀ p ∈ st.oldLines, p.1 ∈ st.oldCtxNums) →
    ∀ p ∈ st1.oldLines, p.1 ∈ st1.oldCtxNums

theorem accumStep_spec (st : AccState) (dl : DLine) (st1 : AccState) (sl : SLine)
    (h : accumStep st dl = .ok (st1, sl)) : StepSpec st dl st1 sl := by
  cases hk : dl.kind
  case ctx =>
    simp [accumStep, hk] at h
    by_cases a1 : (lookupI st.oldLines st.oldNum).isSome
    · simp [a1] at h
    · by_cases a2 : st.oldNum ∈ st.oldCtxNums
      · simp [a1, a2] at h
      · by_cases a3 : (lookupI st.newLines st.newNum).isSome
        · simp [a1, a2, a3] at h
        · by_cases a4 : st.newNum ∈ st.newCtxNums
          · simp [a1, a2, a3, a4] at h
          · simp [a1, a2, a3, a4, Prod.ext_iff] at h
            obtain ⟨h1, h2⟩ := h
            subst h1; subst h2
            refine ⟨by simp [hk], by simp, by simp, ?_, ?_, ?_, ?_, ?_, ?_, ?_, ?_, ?_⟩
            · intro _; exact ⟨rfl, by simp⟩
            · intro hx; simp at hx
            · intro _; exact ⟨rfl, by simp⟩
            · intro hx; simp at hx
            · intro hx; simp at hx
            · intro _; rfl
            · intro hx; simp at hx
            · intro _; rfl
            · intro hsub p hp
              simp at hp
              rcases hp with hin | heq
              · simp [List.mem_append]; left; exact hsub p hin
              · simp [List.mem_append, heq]
  case rem =>
    simp [accumStep, hk] at h
    by_cases a1 : (lookupI st.oldLines st.oldNum).isSome
    · simp [a1] at h
    · by_cases a2 : st.oldNum ∈ st.oldCtxNums
      · simp [a1, a2] at h
      · simp [a1, a2, Prod.ext_iff] at h
        obtain ⟨h1, h2⟩ := h
        subst h1; subst h2
        refine ⟨by simp [hk], by simp, by simp, ?_, ?_, ?_, ?_, ?_, ?_, ?_, ?_, ?_⟩
        · intro _; exact ⟨rfl, by simp⟩
        · intro hx; simp at hx
        · intro hx; simp at hx
        · intro _; rfl
        · intro _; rfl
        · intro hx; simp at hx
        · intro hx; simp at hx
        · intro _; rfl
        · intro hsub p hp
          simp at hp
          rcases hp with hin | heq
          · simp [List.mem_append]; left; exact hsub p hin
          · simp [List.mem_append, heq]
  case add =>
    simp [accumStep, hk] at h
    by_cases a3 : (lookupI st.newLines st.newNum).isSome
    · simp [a3] at h
    · by_cases a4 : st.newNum ∈ st.newCtxNums
      · simp [a3, a4] at h
      · simp [a3, a4, Prod.ext_iff] at h
        obtain ⟨h1, h2⟩ := h
        subst h1; subst h2
        refine ⟨by simp [hk], by simp, by simp, ?_, ?_, ?_, ?_, ?_, ?_, ?_, ?_, ?_⟩
        · intro hx; simp at hx
        · intro _; rfl
        · intro _; exact ⟨rfl, by simp⟩
        · intro hx; simp at hx
        · intro hx; simp at hx
        · intro _; rfl
        · intro _; rfl
        · intro hx; simp at hx
        · intro hsub p hp; exact hsub p hp
  case loc =>
    simp [accumStep, hk] at h
    by_cases ho : 0 < dl.locOldNum
    · by_cases ho2 : st.oldNum < dl.locOldNum
      · rw [if_pos ho, if_pos ho2] at h
        by_cases hn : 0 < dl.locNewNum
        · by_cases hn2 : st.newNum < dl.locNewNum
          · simp [hn, hn2, Prod.ext_iff] at h
            obtain ⟨h1, h2⟩ := h
            subst h1; subst h2
            refine ⟨rfl, by show st.oldNum ≤ dl.locOldNum; omega,
              by show st.newNum ≤ dl.locNewNum; omega,
              ?_, fun _ => rfl, ?_, fun _ => rfl, ?_, fun _ => rfl, ?_, fun _ => rfl,
              fun hsub => hsub⟩
            all_goals (intro hx; simp [mkPassSLine, hk] at hx)
          · simp [hn, hn2] at h
        · simp [hn, Prod.ext_iff] at h
          obtain ⟨h1, h2⟩ := h
          subst h1; subst h2
          refine ⟨rfl, by show st.oldNum ≤ dl.locOldNum; omega, le_refl _,
            ?_, fun _ => rfl, ?_, fun _ => rfl, ?_, fun _ => rfl, ?_, fun _ => rfl,
            fun hsub => hsub⟩
          all_goals (intro hx; simp [mkPassSLine, hk] at hx)
      · simp [ho, ho2] at h
    · rw [if_neg ho] at h
      by_cases hn : 0 < dl.locNewNum
      · by_cases hn2 : st.newNum < dl.locNewNum
        · simp [hn, hn2, Prod.ext_iff] at h
          obtain ⟨h1, h2⟩ := h
          subst h1; subst h2
          refine ⟨rfl, le_refl _, by show st.newNum ≤ dl.locNewNum; omega,
            ?_, fun _ => rfl, ?_, fun _ => rfl, ?_, fun _ => rfl, ?_, fun _ => rfl,
            fun hsub => hsub⟩
          all_goals (intro hx; simp [mkPassSLine, hk] at hx)
        · simp [hn, hn2] at h
      · simp [hn, Prod.ext_iff] at h
        obtain ⟨h1, h2⟩ := h
        subst h1; subst h2
        refine ⟨rfl, le_refl _, le_refl _,
          ?_, fun _ => rfl, ?_, fun _ => rfl, ?_, fun _ => rfl, ?_, fun _ => rfl,
          fun hsub => hsub⟩
        all_goals (intro hx; simp [mkPassSLine, hk] at hx)
  all_goals (
    simp [accumStep, hk, Prod.ext_iff] at h
    obtain ⟨h1, h2⟩ := h
    subst h1; subst h2
    refine ⟨rfl, le_refl _, le_refl _,
      ?_, fun _ => rfl, ?_, fun _ => rfl, ?_, fun _ => rfl, ?_, fun _ => rfl,
      fun hsub => hsub⟩
    all_goals (intro hx; simp [mkPassSLine, hk] at hx))

/-! ### C5: strict increase of assigned line numbers -/

def isCtxRem (l : SLine) : Bool := l.kind == Kind.ctx || l.kind == Kind.rem

def isCtxAdd (l : SLine) : Bool := l.kind == Kind.ctx || l.kind == Kind.add

/-- Old numbers of Context/Removed lines, in order of appearance. -/
def ctxRemNums (sls : List SLine) : List Int := (sls.filter isCtxRem).map (fun l => l.oldNum)

/-- New numbers of Context/Added lines, in order of appearance. -/
def ctxAddNums (sls : List SLine) : List Int := (sls.filter isCtxAdd).map (fun l => l.newNum)

theorem isCtxRem_iff (l : SLine) : isCtxRem l = true ↔ (l.kind = Kind.ctx ∨ l.kind = Kind.rem) := by
  simp [isCtxRem]

theorem isCtxAdd_iff (l : SLine) : isCtxAdd l = true ↔ (l.kind = Kind.ctx ∨ l.kind = Kind.add) := by
  simp [isCtxAdd]

/-- Main number-reconstruction invariant: over any successful accumulation
run, the counters never decrease, the assigned old numbers of Context/Removed
lines (and new numbers of Context/Added lines) are strictly increasing in
order of appearance, and every assigned number lies in the counter interval
of the run. -/
theorem accumLines_chain : ∀ (dls : List DLine) (st st' : AccState) (sls : List SLine),
    accumLines st dls = .ok (st', sls) →
    st.oldNum ≤ st'.oldNum ∧ st.newNum ≤ st'.newNum ∧
    List.Chain' (· < ·) (ctxRemNums sls) ∧ List.Chain' (· < ·) (ctxAddNums sls) ∧
    (∀ x ∈ ctxRemNums sls, st.oldNum ≤ x ∧ x < st'.oldNum) ∧
    (∀ x ∈ ctxAddNums sls, st.newNum ≤ x ∧ x < st'.newNum) := by
  intro dls
  induction dls with
  | nil =>
    intro st st' sls h
    simp [accumLines] at h
    obtain ⟨h1, h2⟩ := h
    subst h1; subst h2
    simp [ctxRemNums, ctxAddNums]
  | cons dl dls ih =>
    intro st st' sls h
    cases e : accumStep st dl with
    | error => simp [accumLines, e] at h
    | ok p =>
      obtain ⟨st1, sl⟩ := p
      cases e2 : accumLines st1 dls with
      | error => simp [accumLines, e, e2] at h
      | ok q =>
        obtain ⟨st2, sls2⟩ := q
        simp only [accumLines, e, e2, Except.ok.injEq, Prod.mk.injEq] at h
        obtain ⟨h1, h2⟩ := h
        subst h1; subst h2
        have spec := accumStep_spec st dl st1 sl e
        have IH := ih st1 st2 sls2 e2
        obtain ⟨iOld, iNew, iCR, iCA, iBR, iBA⟩ := IH
        have hOldSide : List.Chain' (· < ·) (ctxRemNums (sl :: sls2)) ∧
            (∀ x ∈ ctxRemNums (sl :: sls2), st.oldNum ≤ x ∧ x < st2.oldNum) := by
          by_cases hc : isCtxRem sl = true
          · have hk := (isCtxRem_iff sl).mp hc
            obtain ⟨hnum, hcnt⟩ := spec.oldAssigned hk
            have hcons : ctxRemNums (sl :: sls2) = sl.oldNum :: ctxRemNums sls2 := by
              simp [ctxRemNums, List.filter_cons, hc]
            rw [hcons]
            constructor
            · rw [List.chain'_cons']
              refine ⟨?_, iCR⟩
              intro y hy
              have hmem : y ∈ ctxRemNums sls2 := List.mem_of_mem_head? hy
              have := (iBR y hmem).1
              omega
            · intro x hx
              rcases List.mem_cons.mp hx with rfl | hx2
              · refine ⟨by omega, ?_⟩
                have : st1.oldNum ≤ st2.oldNum := iOld
                omega
              · have := iBR x hx2
                omega
          · have hcons : ctxRemNums (sl :: sls2) = ctxRemNums sls2 := by
              simp [ctxRemNums, List.filter_cons, hc]
            rw [hcons]
            refine ⟨iCR, ?_⟩
            intro x hx
            have := iBR x hx
            have := spec.oldMono
            constructor <;> omega
        have hNewSide : List.Chain' (· < ·) (ctxAddNums (sl :: sls2)) ∧
            (∀ x ∈ ctxAddNums (sl :: sls2), st.newNum ≤ x ∧ x < st2.newNum) := by
          by_cases hc : isCtxAdd sl = true
          · have hk := (isCtxAdd_iff sl).mp hc
            obtain ⟨hnum, hcnt⟩ := spec.newAssigned hk
            have hcons : ctxAddNums (sl :: sls2) = sl.newNum :: ctxAddNums sls2 := by
              simp [ctxAddNums, List.filter_cons, hc]
            rw [hcons]
            constructor
            · rw [List.chain'_cons']
              refine ⟨?_, iCA⟩
              intro y hy
              have hmem : y ∈ ctxAddNums sls2 := List.mem_of_mem_head? hy
              have := (iBA y hmem).1
              omega
            · intro x hx
              rcases List.mem_cons.mp hx with rfl | hx2
              · refine ⟨by omega, ?_⟩
                have : st1.newNum ≤ st2.newNum := iNew
                omega
              · have := iBA x hx2
                omega
          · have hcons : ctxAddNums (sl :: sls2) = ctxAddNums sls2 := by
              simp [ctxAddNums, List.filter_cons, hc]
            rw [hcons]
            refine ⟨iCA, ?_⟩
            intro x hx
            have := iBA x hx
            have := spec.newMono
            constructor <;> omega
        exact ⟨le_trans spec.oldMono iOld, le_trans spec.newMono iNew,
          hOldSide.1, hNewSide.1, hOldSide.2, hNewSide.2⟩

theorem accumLines_length : ∀ (dls : List DLine) (st st' : AccState) (sls : List SLine),
    accumLines st dls = .ok (st', sls) → sls.length = dls.length := by
  intro dls
  induction dls with
  | nil =>
    intro st st' sls h
    simp [accumLines] at h
    simp [h.2.symm]
  | cons dl dls ih =>
    intro st st' sls h
    cases e : accumStep st dl with
    | error => simp [accumLines, e] at h
    | ok p =>
      obtain ⟨st1, sl⟩ := p
      cases e2 : accumLines st1 dls with
      | error => simp [accumLines, e, e2] at h
      | ok q =>
        obtain ⟨st2, sls2⟩ := q
        simp only [accumLines, e, e2, Except.ok.injEq, Prod.mk.injEq] at h
        obtain ⟨h1, h2⟩ := h
        subst h1; subst h2
        simp [ih st1 st2 sls2 e2]

/-- C5: in every file block whose number reconstruction succeeds, the old
numbers assigned to Context and Removed lines are strictly increasing (hence
pairwise distinct) in order of appearance, and likewise the new numbers
assigned to Context and Added lines. -/
theorem C5_strictly_increasing (dls : List DLine) (st : AccState) (sls : List SLine)
    (h : accumLines initAcc dls = .ok (st, sls)) :
    List.Pairwise (· < ·) (ctxRemNums sls) ∧ List.Pairwise (· < ·) (ctxAddNums sls) := by
  have hc := accumLines_chain dls initAcc st sls h
  exact ⟨List.chain'_iff_pairwise.mp hc.2.2.1, List.chain'_iff_pairwise.mp hc.2.2.2.1⟩

def c5Block : List DLine :=
  [mkDLine "@@ -3,2 +7,2 @@", mkDLine " a", mkDLine "-b", mkDLine "+c", mkDLine " d"]

/-- Witness for C5 at a concrete block (old numbers 3,4,5; new numbers 7,8,9). -/
theorem C5_witness :
    List.Pairwise (· < ·)
      (ctxRemNums ((accumLines initAcc c5Block).toOption.getD (initAcc, [])).2) ∧
    List.Pairwise (· < ·)
      (ctxAddNums ((accumLines initAcc c5Block).toOption.getD (initAcc, [])).2) :=
  C5_strictly_increasing c5Block
    ((accumLines initAcc c5Block).toOption.getD (initAcc, [])).1
    ((accumLines initAcc c5Block).toOption.getD (initAcc, [])).2
    (by rfl)

/-! ### C1/C2: move detection facts -/

theorem lookupI_mem : ∀ {d : List (Int × Str)} {k : Int} {v : Str},
    lookupI d k = some v → (k, v) ∈ d := by
  intro d
  induction d with
  | nil => intro k v h; simp [lookupI] at h
  | cons p rest ih =>
    intro k v h
    by_cases hc : p.1 = k
    · simp only [lookupI, if_pos hc] at h
      simp only [Option.some.injEq] at h
      have : p = (k, v) := by
        cases p
        simp only at hc h
        simp [hc, h]
      rw [← this]
      exact List.mem_cons_self _ _
    · simp only [lookupI, if_neg hc] at h
      exact List.mem_cons_of_mem _ (ih h)

/-- The key fact behind the dead expansion: in every state produced by the
accumulation loop, the keys of `old_lines` are all members of `old_ctx_nums`
(the code inserts into both under the same `if kind in ('ctx', 'rem')`), so
`diff_lines_match` never returns True: either the old index is in
`old_ctx_nums`, or it is not a key of `old_lines` and the lookup fails. -/
theorem diff_lines_match_false (st : AccState)
    (hkeys : ∀ p ∈ st.oldLines, p.1 ∈ st.oldCtxNums) (i j : Int) :
    diff_lines_match st i j = false := by
  unfold diff_lines_match
  by_cases hi : i ∈ st.oldCtxNums ∨ j ∈ st.newCtxNums
  · simp [hi]
  · simp only [hi, if_false]
    cases hl : lookupI st.oldLines i with
    | none => rfl
    | some ot =>
      exfalso
      exact hi (Or.inl (hkeys (i, ot) (lookupI_mem hl)))

theorem expandBack_id (st : AccState)
    (hkeys : ∀ p ∈ st.oldLines, p.1 ∈ st.oldCtxNums) :
    ∀ (fuel : Nat) (po pn : Int), expandBack st fuel po pn = (po, pn) := by
  intro fuel po pn
  cases fuel with
  | zero => rfl
  | succ f =>
    show (if diff_lines_match st (po - 1) (pn - 1) = true
      then expandBack st f (po - 1) (pn - 1) else (po, pn)) = (po, pn)
    rw [diff_lines_match_false st hkeys]
    simp

theorem expandFwd_id (st : AccState)
    (hkeys : ∀ p ∈ st.oldLines, p.1 ∈ st.oldCtxNums) :
    ∀ (fuel : Nat) (eo en : Int), expandFwd st fuel eo en = (eo, en) := by
  intro fuel eo en
  cases fuel with
  | zero => rfl
  | succ f =>
    show (if diff_lines_match st eo en = true
      then expandFwd st f (eo + 1) (en + 1) else (eo, en)) = (eo, en)
    rw [diff_lines_match_false st hkeys]
    simp

theorem intRange_single (a : Int) : intRange a (a + 1) = [a] := by
  have h1 : (a + 1 - a).toNat = 1 := by omega
  unfold intRange
  rw [h1]
  simp [List.range_succ]

/-- Old seed contributed by one `new_uniques` entry. -/
def seedOldOf (st : AccState) (bi : Str × Option Int) : Option Int :=
  match bi.2 with
  | none => none
  | some _ =>
    match lookupA st.oldUniques bi.1 with
    | some (some o) => some o
    | _ => none

/-- New seed contributed by one `new_uniques` entry. -/
def seedNewOf (st : AccState) (bi : Str × Option Int) : Option Int :=
  match bi.2 with
  | none => none
  | some n =>
    match lookupA st.oldUniques bi.1 with
    | some (some _) => some n
    | _ => none

/-- With the expansion dead, the moved sets are exactly the seed positions. -/
theorem computeMoved_eq_seeds (st : AccState)
    (hkeys : ∀ p ∈ st.oldLines, p.1 ∈ st.oldCtxNums) :
    computeMoved st = (st.newUniques.filterMap (seedOldOf st),
      st.newUniques.filterMap (seedNewOf st)) := by
  have hstep : ∀ (acc : List Int × List Int) (bi : Str × Option Int),
      movedStep st acc bi =
        (acc.1 ++ (seedOldOf st bi).toList, acc.2 ++ (seedNewOf st bi).toList) := by
    intro acc bi
    obtain ⟨b, v⟩ := bi
    cases v with
    | none => simp [movedStep, seedOldOf, seedNewOf]
    | some n =>
      cases hl : lookupA st.oldUniques b with
      | none => simp [movedStep, hl, seedOldOf, seedNewOf]
      | some ov =>
        cases ov with
        | none => simp [movedStep, hl, seedOldOf, seedNewOf]
        | some o =>
          simp [movedStep, hl, expandBack_id st hkeys, expandFwd_id st hkeys,
            intRange_single, seedOldOf, seedNewOf]
  have main : ∀ (l : List (Str × Option Int)) (acc : List Int × List Int),
      l.foldl (movedStep st) acc =
        (acc.1 ++ l.filterMap (seedOldOf st), acc.2 ++ l.filterMap (seedNewOf st)) := by
    intro l
    induction l with
    | nil => intro acc; simp
    | cons bi rest ih =>
      intro acc
      rw [List.foldl_cons, hstep, ih]
      cases hso : seedOldOf st bi with
      | none =>
        cases hsn : seedNewOf st bi with
        | none => simp [List.filterMap_cons, hso, hsn]
        | some y => simp [List.filterMap_cons, hso, hsn]
      | some x =>
        cases hsn : seedNewOf st bi with
        | none => simp [List.filterMap_cons, hso, hsn]
        | some y => simp [List.filterMap_cons, hso, hsn]
  unfold computeMoved
  rw [main st.newUniques ([], [])]
  simp

/-! ### C1: the move-detector expansion is dead code -/

/-- C1 failing block: `u` is unique on both sides (seed); the adjacent
`d` lines at old 2 / new 11 trim-match but `d` is duplicated on the removed
side, so only an expansion could mark them. -/
def c1Block : List DLine :=
  [mkDLine "diff --git a/f b/f",
   mkDLine "--- a/f",
   mkDLine "+++ b/f",
   mkDLine "@@ -1,2 +1,0 @@",
   mkDLine "-u",
   mkDLine "-d",
   mkDLine "@@ -10,1 +10,2 @@",
   mkDLine "-d",
   mkDLine "+u",
   mkDLine "+d"]

def movedOf (lines : List DLine) : Option (List Int × List Int) :=
  (accumLines initAcc lines).toOption.map (fun p => computeMoved p.1)

/-- C1: evaluation of the move detector at the failing block.  The claim
(and the code's own intent — `old_ctx_nums` is documented as "Line numbers of
context lines") requires the seed `u` at (old 1, new 10) to expand forward
over the equal-trimmed non-context pairing `d` at (old 2, new 11), yielding
moved sets {1,2}/{10,11}.  The code produces only the seeds {1}/{10}: the
accumulation loop inserts removed-line numbers into `old_ctx_nums` (and
added-line numbers into `new_ctx_nums`) as well, so `diff_lines_match`
returns False for every pair — here despite both texts being `d` and line
old 2 being a removed, not a context, line. -/
theorem C1_expansion_dead :
    movedOf c1Block = some ([1], [10]) ∧
    ((accumLines initAcc c1Block).toOption.map (fun p =>
       (lookupI p.1.oldLines 2, lookupI p.1.newLines 11,
        (c1Block.getD 5 default).kind, (c1Block.getD 9 default).kind,
        decide (2 ∈ p.1.oldCtxNums), diff_lines_match p.1 2 11))) =
      some (some "d".data, some "d".data, Kind.rem, Kind.add, true, false) := by
  constructor
  · decide
  · decide

/-! ### C2: association-list and count lemmas for the uniqueness maps -/

theorem lookupA_mem : ∀ {d : List (Str × Option Int)} {b : Str} {v : Option Int},
    lookupA d b = some v → (b, v) ∈ d := by
  intro d
  induction d with
  | nil => intro b v h; simp [lookupA] at h
  | cons p rest ih =>
    intro b v h
    by_cases hc : p.1 = b
    · simp only [lookupA, if_pos hc, Option.some.injEq] at h
      have : p = (b, v) := by
        cases p
        simp only at hc h
        simp [hc, h]
      rw [← this]
      exact List.mem_cons_self _ _
    · simp only [lookupA, if_neg hc] at h
      exact List.mem_cons_of_mem _ (ih h)

theorem lookupA_ne_none_of_mem : ∀ {d : List (Str × Option Int)} {b : Str} {v : Option Int},
    (b, v) ∈ d → lookupA d b ≠ none := by
  intro d
  induction d with
  | nil => intro b v h; simp at h
  | cons p rest ih =>
    intro b v h
    rcases List.mem_cons.mp h with rfl | hm
    · simp [lookupA]
    · by_cases hc : p.1 = b
      · simp [lookupA, hc]
      · simp only [lookupA, if_neg hc]
        exact ih hm

theorem lookupA_append : ∀ (d : List (Str × Option Int)) (k : Str) (v : Option Int) (b : Str),
    lookupA (d ++ [(k, v)]) b =
      match lookupA d b with
      | some w => some w
      | none => if k = b then some v else none := by
  intro d
  induction d with
  | nil =>
    intro k v b
    simp [lookupA]
  | cons p rest ih =>
    intro k v b
    by_cases hc : p.1 = b
    · simp [lookupA, hc]
    · simp only [List.cons_append, lookupA, if_neg hc]
      exact ih k v b

theorem setA_mem_some {d : List (Str × Option Int)} {k b : Str} {i : Int}
    (h : (b, some i) ∈ setA d k none) : (b, some i) ∈ d ∧ b ≠ k := by
  unfold setA at h
  rcases List.mem_map.mp h with ⟨p, hp, he⟩
  by_cases hc : p.1 = k
  · rw [if_pos hc] at he
    have : (none : Option Int) = some i := congrArg Prod.snd he
    simp at this
  · rw [if_neg hc] at he
    subst he
    exact ⟨hp, fun hbk => hc hbk⟩

theorem lookupA_setA_none_iff : ∀ (d : List (Str × Option Int)) (k : Str) (v : Option Int)
    (b : Str), lookupA (setA d k v) b = none ↔ lookupA d b = none := by
  intro d
  induction d with
  | nil => intro k v b; simp [setA, lookupA]
  | cons p rest ih =>
    intro k v b
    simp only [setA, List.map_cons]
    by_cases hc : p.1 = k
    · simp only [if_pos hc, lookupA]
      by_cases hb : p.1 = b
      · simp [hb]
      · simp only [if_neg hb]
        exact ih k v b
    · simp only [if_neg hc, lookupA]
      by_cases hb : p.1 = b
      · simp [hb]
      · simp only [if_neg hb]
        exact ih k v b

/-- Number of Removed lines of the block whose trimmed body is `b`. -/
def remCount (sls : List SLine) (b : Str) : Nat :=
  (sls.filter (fun l => l.kind == Kind.rem && pstrip l.text == b)).length

/-- Number of Added lines of the block whose trimmed body is `b`. -/
def addCount (sls : List SLine) (b : Str) : Nat :=
  (sls.filter (fun l => l.kind == Kind.add && pstrip l.text == b)).length

theorem remCount_append (xs ys : List SLine) (b : Str) :
    remCount (xs ++ ys) b = remCount xs b + remCount ys b := by
  simp [remCount, List.filter_append]

theorem addCount_append (xs ys : List SLine) (b : Str) :
    addCount (xs ++ ys) b = addCount xs b + addCount ys b := by
  simp [addCount, List.filter_append]

theorem remCount_single_ne {sl : SLine} (h : ¬ sl.kind = Kind.rem) (b : Str) :
    remCount [sl] b = 0 := by
  have hb : (sl.kind == Kind.rem) = false := by simpa using h
  simp [remCount, List.filter_cons, hb]

theorem addCount_single_ne {sl : SLine} (h : ¬ sl.kind = Kind.add) (b : Str) :
    addCount [sl] b = 0 := by
  have hb : (sl.kind == Kind.add) = false := by simpa using h
  simp [addCount, List.filter_cons, hb]

theorem remCount_single_rem {sl : SLine} (h : sl.kind = Kind.rem) (b : Str) :
    remCount [sl] b = if pstrip sl.text = b then 1 else 0 := by
  have hk : (sl.kind == Kind.rem) = true := by simpa using h
  by_cases hb : pstrip sl.text = b
  · simp [remCount, List.filter_cons, hk, hb]
  · simp [remCount, List.filter_cons, hk, hb]

theorem addCount_single_add {sl : SLine} (h : sl.kind = Kind.add) (b : Str) :
    addCount [sl] b = if pstrip sl.text = b then 1 else 0 := by
  have hk : (sl.kind == Kind.add) = true := by simpa using h
  by_cases hb : pstrip sl.text = b
  · simp [addCount, List.filter_cons, hk, hb]
  · simp [addCount, List.filter_cons, hk, hb]

/-! ### C2: invariant linking the uniqueness maps to the block's lines -/

/-- `old_uniques` vs. the removed lines seen so far: an absent body has no
removed occurrence, a body mapped to a concrete number has exactly one, and
that occurrence is a removed line carrying that number. -/
def RemUniqInv (uniq : List (Str × Option Int)) (sls : List SLine) : Prop :=
  (∀ b, lookupA uniq b = none → remCount sls b = 0) ∧
  (∀ b i, (b, some i) ∈ uniq → remCount sls b = 1 ∧
     ∃ l ∈ sls, l.kind = Kind.rem ∧ pstrip l.text = b ∧ l.oldNum = i)

/-- Mirror invariant for `new_uniques` and added lines. -/
def AddUniqInv (uniq : List (Str × Option Int)) (sls : List SLine) : Prop :=
  (∀ b, lookupA uniq b = none → addCount sls b = 0) ∧
  (∀ b i, (b, some i) ∈ uniq → addCount sls b = 1 ∧
     ∃ l ∈ sls, l.kind = Kind.add ∧ pstrip l.text = b ∧ l.newNum = i)

theorem remUniqInv_skip {uniq : List (Str × Option Int)} {prior : List SLine} {sl : SLine}
    (hk : ¬ sl.kind = Kind.rem) (hinv : RemUniqInv uniq prior) :
    RemUniqInv uniq (prior ++ [sl]) := by
  constructor
  · intro b hnone
    rw [remCount_append, hinv.1 b hnone, remCount_single_ne hk]
  · intro b i hmem
    obtain ⟨hcount, l, hl, hlk, hlb, hln⟩ := hinv.2 b i hmem
    refine ⟨?_, l, List.mem_append_left _ hl, hlk, hlb, hln⟩
    rw [remCount_append, hcount, remCount_single_ne hk]

theorem addUniqInv_skip {uniq : List (Str × Option Int)} {prior : List SLine} {sl : SLine}
    (hk : ¬ sl.kind = Kind.add) (hinv : AddUniqInv uniq prior) :
    AddUniqInv uniq (prior ++ [sl]) := by
  constructor
  · intro b hnone
    rw [addCount_append, hinv.1 b hnone, addCount_single_ne hk]
  · intro b i hmem
    obtain ⟨hcount, l, hl, hlk, hlb, hln⟩ := hinv.2 b i hmem
    refine ⟨?_, l, List.mem_append_left _ hl, hlk, hlb, hln⟩
    rw [addCount_append, hcount, addCount_single_ne hk]

theorem remUniqInv_insert {uniq : List (Str × Option Int)} {prior : List SLine} {sl : SLine}
    (hk : sl.kind = Kind.rem) (hinv : RemUniqInv uniq prior) :
    RemUniqInv (insert_unique_line uniq sl.text sl.oldNum) (prior ++ [sl]) := by
  unfold insert_unique_line
  by_cases hsome : (lookupA uniq (pstrip sl.text)).isSome
  · rw [if_pos hsome]
    constructor
    · intro b hnone
      have hnone' : lookupA uniq b = none := (lookupA_setA_none_iff _ _ _ _).mp hnone
      have hbne : ¬ pstrip sl.text = b := by
        intro he
        rw [← he] at hnone'
        rw [hnone'] at hsome
        simp at hsome
      rw [remCount_append, hinv.1 b hnone', remCount_single_rem hk, if_neg hbne]
    · intro b i hmem
      obtain ⟨hmem', hbne⟩ := setA_mem_some hmem
      obtain ⟨hcount, l, hl, hlk, hlb, hln⟩ := hinv.2 b i hmem'
      refine ⟨?_, l, List.mem_append_left _ hl, hlk, hlb, hln⟩
      rw [remCount_append, hcount, remCount_single_rem hk,
        if_neg (fun he => hbne he.symm)]
  · rw [if_neg hsome]
    have hnone0 : lookupA uniq (pstrip sl.text) = none :=
      Option.not_isSome_iff_eq_none.mp hsome
    constructor
    · intro b hnone
      rw [lookupA_append] at hnone
      cases hl : lookupA uniq b with
      | some w => rw [hl] at hnone; simp at hnone
      | none =>
        rw [hl] at hnone
        simp only [] at hnone
        have hbne : ¬ pstrip sl.text = b := by
          intro he
          rw [if_pos he] at hnone
          simp at hnone
        rw [remCount_append, hinv.1 b hl, remCount_single_rem hk, if_neg hbne]
    · intro b i hmem
      rcases List.mem_append.mp hmem with hin | heq
      · obtain ⟨hcount, l, hl, hlk, hlb, hln⟩ := hinv.2 b i hin
        have hbne : ¬ pstrip sl.text = b := by
          intro he
          exact lookupA_ne_none_of_mem hin (he ▸ hnone0)
        refine ⟨?_, l, List.mem_append_left _ hl, hlk, hlb, hln⟩
        rw [remCount_append, hcount, remCount_single_rem hk, if_neg hbne]
      · have heq' : (b, some i) = (pstrip sl.text, some sl.oldNum) := by simpa using heq
        have hb : b = pstrip sl.text := congrArg Prod.fst heq'
        have hi : i = sl.oldNum := by
          have := congrArg Prod.snd heq'
          simpa using this
        subst hb; subst hi
        refine ⟨?_, sl, List.mem_append_right _ (by simp), hk, rfl, rfl⟩
        rw [remCount_append, hinv.1 _ hnone0, remCount_single_rem hk, if_pos rfl]

theorem addUniqInv_insert {uniq : List (Str × Option Int)} {prior : List SLine} {sl : SLine}
    (hk : sl.kind = Kind.add) (hinv : AddUniqInv uniq prior) :
    AddUniqInv (insert_unique_line uniq sl.text sl.newNum) (prior ++ [sl]) := by
  unfold insert_unique_line
  by_cases hsome : (lookupA uniq (pstrip sl.text)).isSome
  · rw [if_pos hsome]
    constructor
    · intro b hnone
      have hnone' : lookupA uniq b = none := (lookupA_setA_none_iff _ _ _ _).mp hnone
      have hbne : ¬ pstrip sl.text = b := by
        intro he
        rw [← he] at hnone'
        rw [hnone'] at hsome
        simp at hsome
      rw [addCount_append, hinv.1 b hnone', addCount_single_add hk, if_neg hbne]
    · intro b i hmem
      obtain ⟨hmem', hbne⟩ := setA_mem_some hmem
      obtain ⟨hcount, l, hl, hlk, hlb, hln⟩ := hinv.2 b i hmem'
      refine ⟨?_, l, List.mem_append_left _ hl, hlk, hlb, hln⟩
      rw [addCount_append, hcount, addCount_single_add hk,
        if_neg (fun he => hbne he.symm)]
  · rw [if_neg hsome]
    have hnone0 : lookupA uniq (pstrip sl.text) = none :=
      Option.not_isSome_iff_eq_none.mp hsome
    constructor
    · intro b hnone
      rw [lookupA_append] at hnone
      cases hl : lookupA uniq b with
      | some w => rw [hl] at hnone; simp at hnone
      | none =>
        rw [hl] at hnone
        simp only [] at hnone
        have hbne : ¬ pstrip sl.text = b := by
          intro he
          rw [if_pos he] at hnone
          simp at hnone
        rw [addCount_append, hinv.1 b hl, addCount_single_add hk, if_neg hbne]
    · intro b i hmem
      rcases List.mem_append.mp hmem with hin | heq
      · obtain ⟨hcount, l, hl, hlk, hlb, hln⟩ := hinv.2 b i hin
        have hbne : ¬ pstrip sl.text = b := by
          intro he
          exact lookupA_ne_none_of_mem hin (he ▸ hnone0)
        refine ⟨?_, l, List.mem_append_left _ hl, hlk, hlb, hln⟩
        rw [addCount_append, hcount, addCount_single_add hk, if_neg hbne]
      · have heq' : (b, some i) = (pstrip sl.text, some sl.newNum) := by simpa using heq
        have hb : b = pstrip sl.text := congrArg Prod.fst heq'
        have hi : i = sl.newNum := by
          have := congrArg Prod.snd heq'
          simpa using this
        subst hb; subst hi
        refine ⟨?_, sl, List.mem_append_right _ (by simp), hk, rfl, rfl⟩
        rw [addCount_append, hinv.1 _ hnone0, addCount_single_add hk, if_pos rfl]

theorem accumLines_keys : ∀ (dls : List DLine) (st st' : AccState) (sls : List SLine),
    accumLines st dls = .ok (st', sls) →
    (∀ p ∈ st.oldLines, p.1 ∈ st.oldCtxNums) →
    ∀ p ∈ st'.oldLines, p.1 ∈ st'.oldCtxNums := by
  intro dls
  induction dls with
  | nil =>
    intro st st' sls h hk
    simp [accumLines] at h
    rw [← h.1]
    exact hk
  | cons dl dls ih =>
    intro st st' sls h hk
    cases e : accumStep st dl with
    | error => simp [accumLines, e] at h
    | ok p =>
      obtain ⟨st1, sl⟩ := p
      cases e2 : accumLines st1 dls with
      | error => simp [accumLines, e, e2] at h
      | ok q =>
        obtain ⟨st2, sls2⟩ := q
        simp only [accumLines, e, e2, Except.ok.injEq, Prod.mk.injEq] at h
        obtain ⟨h1, h2⟩ := h
        subst h1; subst h2
        exact ih st1 st2 sls2 e2 ((accumStep_spec st dl st1 sl e).keysOld hk)

/-- Transport of the two uniqueness invariants over a whole accumulation run. -/
theorem accumLines_uniq : ∀ (dls : List DLine) (st st' : AccState) (sls : List SLine),
    accumLines st dls = .ok (st', sls) → ∀ (prior : List SLine),
    (RemUniqInv st.oldUniques prior → RemUniqInv st'.oldUniques (prior ++ sls)) ∧
    (AddUniqInv st.newUniques prior → AddUniqInv st'.newUniques (prior ++ sls)) := by
  intro dls
  induction dls with
  | nil =>
    intro st st' sls h prior
    simp [accumLines] at h
    rw [← h.1, h.2]
    simp only [List.append_nil]
    exact ⟨id, id⟩
  | cons dl dls ih =>
    intro st st' sls h prior
    cases e : accumStep st dl with
    | error => simp [accumLines, e] at h
    | ok p =>
      obtain ⟨st1, sl⟩ := p
      cases e2 : accumLines st1 dls with
      | error => simp [accumLines, e, e2] at h
      | ok q =>
        obtain ⟨st2, sls2⟩ := q
        simp only [accumLines, e, e2, Except.ok.injEq, Prod.mk.injEq] at h
        obtain ⟨h1, h2⟩ := h
        subst h1; subst h2
        have spec := accumStep_spec st dl st1 sl e
        have hassoc : prior ++ sl :: sls2 = (prior ++ [sl]) ++ sls2 := by simp
        rw [hassoc]
        constructor
        · intro hinv
          refine (ih st1 st2 sls2 e2 (prior ++ [sl])).1 ?_
          by_cases hr : sl.kind = Kind.rem
          · rw [spec.remUniq hr, (spec.oldAssigned (Or.inr hr)).1.symm]
            exact remUniqInv_insert hr hinv
          · rw [spec.remUniqNe hr]
            exact remUniqInv_skip hr hinv
        · intro hinv
          refine (ih st1 st2 sls2 e2 (prior ++ [sl])).2 ?_
          by_cases ha : sl.kind = Kind.add
          · rw [spec.addUniq ha, (spec.newAssigned (Or.inr ha)).1.symm]
            exact addUniqInv_insert ha hinv
          · rw [spec.addUniqNe ha]
            exact addUniqInv_skip ha hinv

/-- C2: in every file block whose reconstruction succeeds, a removed line
whose trimmed body occurs at least twice among the block's removed lines is
never in the old moved set (and is therefore rendered without the moved
sub-style); symmetrically for added lines and the new moved set. -/
theorem C2_duplicates_not_moved (dls : List DLine) (st : AccState) (sls : List SLine)
    (h : accumLines initAcc dls = .ok (st, sls)) :
    (∀ l ∈ sls, l.kind = Kind.rem → 2 ≤ remCount sls (pstrip l.text) →
       l.oldNum ∉ (computeMoved st).1 ∧
       (∀ i oP nP, renderLine i oP nP (computeMoved st).1 (computeMoved st).2 l =
          .ok [C_REM_LINE ++ l.text ++ C_END])) ∧
    (∀ l ∈ sls, l.kind = Kind.add → 2 ≤ addCount sls (pstrip l.text) →
       l.newNum ∉ (computeMoved st).2 ∧
       (∀ i oP nP, renderLine i oP nP (computeMoved st).1 (computeMoved st).2 l =
          .ok [C_ADD_LINE ++ l.text ++ C_END])) := by
  have hkeys : ∀ p ∈ st.oldLines, p.1 ∈ st.oldCtxNums :=
    accumLines_keys dls initAcc st sls h (by intro p hp; simp [initAcc] at hp)
  have hseeds := computeMoved_eq_seeds st hkeys
  have huniqR : RemUniqInv st.oldUniques sls := by
    have := (accumLines_uniq dls initAcc st sls h []).1
      ⟨fun b _ => rfl, fun b i hmem => by simp [initAcc] at hmem⟩
    simpa using this
  have huniqA : AddUniqInv st.newUniques sls := by
    have := (accumLines_uniq dls initAcc st sls h []).2
      ⟨fun b _ => rfl, fun b i hmem => by simp [initAcc] at hmem⟩
    simpa using this
  have hchain := accumLines_chain dls initAcc st sls h
  constructor
  · intro l hl hk hcnt
    have hnot : l.oldNum ∉ (computeMoved st).1 := by
      intro hmem
      rw [hseeds] at hmem
      simp only [] at hmem
      rcases List.mem_filterMap.mp hmem with ⟨bi, _, hseed⟩
      unfold seedOldOf at hseed
      cases hv : bi.2 with
      | none => rw [hv] at hseed; simp at hseed
      | some n =>
        rw [hv] at hseed
        cases hlk : lookupA st.oldUniques bi.1 with
        | none => rw [hlk] at hseed; simp at hseed
        | some ov =>
          cases ov with
          | none => rw [hlk] at hseed; simp at hseed
          | some o =>
            rw [hlk] at hseed
            simp only [Option.some.injEq] at hseed
            obtain ⟨hcount1, l', hl', hlk', hlb', hln'⟩ :=
              huniqR.2 bi.1 o (lookupA_mem hlk)
            by_cases hbb : pstrip l.text = bi.1
            · rw [hbb] at hcnt
              omega
            · have hne : l ≠ l' := fun he => hbb (by rw [he, hlb'])
              have hpair : List.Pairwise (fun a b : SLine => a.oldNum < b.oldNum)
                  (sls.filter isCtxRem) :=
                List.pairwise_map.mp (List.chain'_iff_pairwise.mp hchain.2.2.1)
              have hpne : List.Pairwise (fun a b : SLine => a.oldNum ≠ b.oldNum)
                  (sls.filter isCtxRem) :=
                hpair.imp (fun hlt => ne_of_lt hlt)
              have hfl : l ∈ sls.filter isCtxRem :=
                List.mem_filter.mpr ⟨hl, by simp [isCtxRem, hk]⟩
              have hfl' : l' ∈ sls.filter isCtxRem :=
                List.mem_filter.mpr ⟨hl', by simp [isCtxRem, hlk']⟩
              have := hpne.forall (fun x y hxy => hxy.symm) hfl hfl' hne
              exact this (by omega)
    refine ⟨hnot, ?_⟩
    intro i oP nP
    simp [renderLine, hk, hnot]
  · intro l hl hk hcnt
    have hnot : l.newNum ∉ (computeMoved st).2 := by
      intro hmem
      rw [hseeds] at hmem
      simp only [] at hmem
      rcases List.mem_filterMap.mp hmem with ⟨bi, hbi, hseed⟩
      unfold seedNewOf at hseed
      cases hv : bi.2 with
      | none => rw [hv] at hseed; simp at hseed
      | some n =>
        rw [hv] at hseed
        cases hlk : lookupA st.oldUniques bi.1 with
        | none => rw [hlk] at hseed; simp at hseed
        | some ov =>
          cases ov with
          | none => rw [hlk] at hseed; simp at hseed
          | some o =>
            rw [hlk] at hseed
            simp only [Option.some.injEq] at hseed
            have hmemN : (bi.1, some n) ∈ st.newUniques := by
              have : bi = (bi.1, some n) := by
                cases bi
                simp only at hv
                simp [hv]
              rw [← this]
              exact hbi
            obtain ⟨hcount1, l', hl', hlk', hlb', hln'⟩ := huniqA.2 bi.1 n hmemN
            by_cases hbb : pstrip l.text = bi.1
            · rw [hbb] at hcnt
              omega
            · have hne : l ≠ l' := fun he => hbb (by rw [he, hlb'])
              have hpair : List.Pairwise (fun a b : SLine => a.newNum < b.newNum)
                  (sls.filter isCtxAdd) :=
                List.pairwise_map.mp (List.chain'_iff_pairwise.mp hchain.2.2.2.1)
              have hpne : List.Pairwise (fun a b : SLine => a.newNum ≠ b.newNum)
                  (sls.filter isCtxAdd) :=
                hpair.imp (fun hlt => ne_of_lt hlt)
              have hfl : l ∈ sls.filter isCtxAdd :=
                List.mem_filter.mpr ⟨hl, by simp [isCtxAdd, hk]⟩
              have hfl' : l' ∈ sls.filter isCtxAdd :=
                List.mem_filter.mpr ⟨hl', by simp [isCtxAdd, hlk']⟩
              have := hpne.forall (fun x y hxy => hxy.symm) hfl hfl' hne
              exact this (by omega)
    refine ⟨hnot, ?_⟩
    intro i oP nP
    simp [renderLine, hk, hnot]

/-- C2 witness block: `p` occurs twice among the removed lines, `q` twice
among the added ones. -/
def c2Block : List DLine :=
  [mkDLine "diff --git a/f b/f",
   mkDLine "@@ -1,2 +10,0 @@",
   mkDLine "-p",
   mkDLine "-p",
   mkDLine "@@ -20,0 +20,2 @@",
   mkDLine "+q",
   mkDLine "+q"]

/-- Witness for C2 at the concrete block: the duplicated removed line at
old 1 and the duplicated added line at new 20 are not in the moved sets. -/
theorem C2_witness :
    (((accumLines initAcc c2Block).toOption.getD (initAcc, [])).2.getD 2 default).oldNum ∉
      (computeMoved ((accumLines initAcc c2Block).toOption.getD (initAcc, [])).1).1 ∧
    (((accumLines initAcc c2Block).toOption.getD (initAcc, [])).2.getD 5 default).newNum ∉
      (computeMoved ((accumLines initAcc c2Block).toOption.getD (initAcc, [])).1).2 :=
  ⟨((C2_duplicates_not_moved c2Block
      ((accumLines initAcc c2Block).toOption.getD (initAcc, [])).1
      ((accumLines initAcc c2Block).toOption.getD (initAcc, [])).2 (by rfl)).1
    _ (by decide) (by decide) (by decide)).1,
   ((C2_duplicates_not_moved c2Block
      ((accumLines initAcc c2Block).toOption.getD (initAcc, [])).1
      ((accumLines initAcc c2Block).toOption.getD (initAcc, [])).2 (by rfl)).2
    _ (by decide) (by decide) (by decide)).1⟩

/-! ### C7: exactly one output line per input line in interactive mode -/

/-- One side of the `SequenceMatcher.get_matching_blocks` contract: block
starts never precede the previous block's end, every block lies inside the
stream, and the list terminates with the sentinel `(len, 0)`. -/
def sideValidB (n : Nat) : Nat → List (Nat × Nat) → Bool
  | _, [] => false
  | d, (p, l) :: rest =>
    decide (d ≤ p) && decide (p + l ≤ n) &&
      (match rest with
       | [] => decide (p = n) && decide (l = 0)
       | _ :: _ => sideValidB n (p + l) rest)

/-- The documented contract of `difflib.SequenceMatcher.get_matching_blocks`
for both projections of the returned triples. -/
def MatcherOK (matcher : List Str → List Str → List (Nat × Nat × Nat)) : Prop :=
  ∀ a b : List Str,
    sideValidB a.length 0 ((matcher a b).map (fun x => (x.1, x.2.2))) = true ∧
    sideValidB b.length 0 ((matcher a b).map (fun x => (x.2.1, x.2.2))) = true

theorem sentinelMatcher_ok : MatcherOK sentinelMatcher := by
  intro a b
  constructor <;> simp [sentinelMatcher, sideValidB]

theorem groupRuns_flatten {α κ : Type} [BEq κ] (key : α → κ) :
    ∀ (xs : List α), ((groupRuns key xs).map (fun g => g.2)).flatten = xs := by
  intro xs
  induction xs with
  | nil => rfl
  | cons x xs ih =>
    cases hg : groupRuns key xs with
    | nil =>
      rw [hg] at ih
      simp at ih
      simp [groupRuns, hg, ← ih]
    | cons g rest =>
      obtain ⟨k, grp⟩ := g
      rw [hg] at ih
      by_cases hk : (key x == k) = true
      · simp only [groupRuns, hg, hk, if_pos rfl]
        simp only [List.map_cons, List.flatten_cons] at ih ⊢
        simp [← ih]
      · simp only [groupRuns, hg]
        rw [if_neg (by simpa using hk)]
        simp only [List.map_cons, List.flatten_cons] at ih ⊢
        simp [← ih]

theorem applyNewTexts_length : ∀ (chunk : List SLine) (rts ats : List Str),
    (applyNewTexts chunk rts ats).length = chunk.length := by
  intro chunk
  induction chunk with
  | nil => intro rts ats; rfl
  | cons l ls ih =>
    intro rts ats
    by_cases ho : l.oldNum ≠ 0
    · cases rts with
      | nil => simp [applyNewTexts, ho, ih]
      | cons t rts2 => simp [applyNewTexts, ho, ih]
    · by_cases hn : l.newNum ≠ 0
      · cases ats with
        | nil => simp [applyNewTexts, ho, hn, ih]
        | cons t ats2 => simp [applyNewTexts, ho, hn, ih]
      · simp [applyNewTexts, ho, hn, ih]

theorem processGroup_length (matcher : List Str → List Str → List (Nat × Nat × Nat))
    (g : (Bool × Nat × Bool) × List SLine) :
    (processGroup matcher g).length = g.2.length := by
  unfold processGroup
  dsimp only
  split
  · simp [applyNewTexts_length]
  · split
    · simp
    · rfl

theorem renderLine_interactive_one (oP nP : Str) (om nm : List Int) (l : SLine)
    (r : List Str) (h : renderLine true oP nP om nm l = .ok r) : r.length = 1 := by
  cases hk : l.kind <;> simp [renderLine, hk] at h <;> simp [← h]

theorem renderLines_length : ∀ (ls : List SLine) (oP nP : Str) (om nm : List Int)
    (out : List Str), renderLines true oP nP om nm ls = .ok out → out.length = ls.length := by
  intro ls
  induction ls with
  | nil =>
    intro oP nP om nm out h
    simp [renderLines] at h
    simp [← h]
  | cons l rest ih =>
    intro oP nP om nm out h
    cases e : renderLine true oP nP om nm l with
    | error => simp [renderLines, e] at h
    | ok r =>
      cases e2 : renderLines true oP nP om nm rest with
      | error => simp [renderLines, e, e2] at h
      | ok rs =>
        simp only [renderLines, e, e2, Except.ok.injEq] at h
        rw [← h]
        have h1 := renderLine_interactive_one oP nP om nm l r e
        have h2 := ih oP nP om nm rs e2
        simp only [List.length_append, List.length_cons, h1, h2]
        omega

/-- C7: with the interactive flag set, a block that renders successfully
emits exactly one output line per input line — no line is dropped (index and
path-marker lines included) and no two lines are merged.  The count is
independent of the matching-blocks oracle; the `MatcherOK` hypothesis records
the contract under which the embedding is faithful. -/
theorem C7_interactive_line_count (matcher : List Str → List Str → List (Nat × Nat × Nat))
    (lines : List DLine) (out : List Str) (hm : MatcherOK matcher)
    (h : handleFileLines matcher true lines = .ok out) :
    out.length = lines.length := by
  cases lines with
  | nil =>
    simp [handleFileLines] at h
    simp [← h]
  | cons first rest =>
    by_cases hskip : (first.kind ≠ Kind.diff ∧ first.kind ≠ Kind.loc) ∨ 0 < graphEnd first.plain
    · simp only [handleFileLines, if_pos hskip] at h
      simp only [Except.ok.injEq] at h
      rw [← h]
      simp
    · simp only [handleFileLines, if_neg hskip] at h
      cases e : accumLines initAcc (first :: rest) with
      | error => rw [e] at h; simp at h
      | ok p =>
        obtain ⟨st, slines⟩ := p
        rw [e] at h
        simp only [] at h
        have hrl := renderLines_length _ _ _ _ _ _ h
        rw [hrl]
        have hflat : (((groupRuns (chunkKey (computeMoved st).1 (computeMoved st).2) slines).map
            (processGroup matcher)).flatten).length = slines.length := by
          rw [List.length_flatten]
          have hmap : ((groupRuns (chunkKey (computeMoved st).1 (computeMoved st).2) slines).map
              (processGroup matcher)).map List.length =
              ((groupRuns (chunkKey (computeMoved st).1 (computeMoved st).2) slines).map
                (fun g => g.2)).map List.length := by
            simp only [List.map_map]
            exact List.map_congr_left (fun g _ => processGroup_length matcher g)
          rw [hmap, ← List.length_flatten, groupRuns_flatten]
        rw [hflat]
        exact accumLines_length (first :: rest) initAcc st slines e

def c7Block : List DLine :=
  [mkDLine "@@ -1,1 +1,1 @@", mkDLine "-a", mkDLine "+b", mkDLine "index 12..34 100644"]

/-- Witness for C7: a concrete four-line block renders to four lines. -/
theorem C7_witness :
    handleFileLines sentinelMatcher true c7Block =
      .ok ((handleFileLines sentinelMatcher true c7Block).toOption.getD []) ∧
    ((handleFileLines sentinelMatcher true c7Block).toOption.getD []).length =
      c7Block.length :=
  ⟨by rfl,
   C7_interactive_line_count sentinelMatcher c7Block
     ((handleFileLines sentinelMatcher true c7Block).toOption.getD [])
     sentinelMatcher_ok (by rfl)⟩

/-! ### C8, C9, C10: renderer facts -/

def exceptErr {α : Type} : Except String α → Option String
  | .error e => some e
  | .ok _ => none

/-- C8 block: an added line whose body is exactly one space. -/
def c8Block : List DLine :=
  [mkDLine "diff --git a/f b/f", mkDLine "@@ -1,0 +1,1 @@", mkDLine "+ "]

/-- C8 counterexample: the whitespace-only added line is rendered with the
plain add-line background `C_ADD_LINE` and the ordinary token-highlight
style `C_ADD_TOKEN` — exactly the two styles the claim says must not be used
— and no other styling: no distinct whitespace-only-content style exists in
the renderer. -/
theorem C8_counterexample :
    (handleFileLines sentinelMatcher false c8Block).toOption =
      some [C_FILE ++ "<OLD_PATH> -> <NEW_PATH>".data ++ ":".data ++ C_END,
            C_LOC ++ "<NEW_PATH>".data ++ ":".data ++ "1".data ++ ":".data ++ C_END,
            C_ADD_LINE ++ C_ADD_TOKEN ++ " ".data ++ C_END] := by
  decide

/-- C8 amended: there is no whitespace-only-content style.  A Removed or
Added line is always rendered with the plain removed/added line style, the
moved sub-style exactly when its number is in the moved set, and its (token-
or strange-char-styled) text — independently of whether the body is empty or
all-whitespace. -/
theorem C8_no_whitespace_style (i : Bool) (oP nP : Str) (om nm : List Int) (l : SLine) :
    (l.kind = Kind.rem → renderLine i oP nP om nm l =
       .ok [C_REM_LINE ++ (if l.oldNum ∈ om then C_REM_MOVED else []) ++ l.text ++ C_END]) ∧
    (l.kind = Kind.add → renderLine i oP nP om nm l =
       .ok [C_ADD_LINE ++ (if l.newNum ∈ nm then C_ADD_MOVED else []) ++ l.text ++ C_END]) := by
  constructor
  · intro hk
    simp [renderLine, hk]
  · intro hk
    simp [renderLine, hk]

/-- Witness for C8 amended at the whitespace-only added line of `c8Block`
(body " ", not moved). -/
theorem C8_no_whitespace_style_witness :
    renderLine false ("<OLD_PATH>".data) ("<NEW_PATH>".data) [] []
      { kind := Kind.add, rich := "+ ".data, plain := "+ ".data, text := " ".data,
        newNum := 1 } =
      .ok [C_ADD_LINE ++ " ".data ++ C_END] := by
  have h := (C8_no_whitespace_style false ("<OLD_PATH>".data) ("<NEW_PATH>".data) [] []
    { kind := Kind.add, rich := "+ ".data, plain := "+ ".data, text := " ".data,
      newNum := 1 }).2 (by decide)
  rw [h]
  simp

/-- C9 block A: differing paths with the usual `a/`/`b/` prefixes. -/
def c9aBlock : List DLine :=
  [mkDLine "diff --git a/x.txt b/y.txt", mkDLine "--- a/x.txt", mkDLine "+++ b/y.txt"]

/-- C9 block B: captured paths that are exactly equal. -/
def c9bBlock : List DLine :=
  [mkDLine "diff --git a/s b/s", mkDLine "--- p/q", mkDLine "+++ p/q"]

/-- C9 counterexample: for `--- a/x.txt` / `+++ b/y.txt` the rendered file
header reads `a/x.txt -> b/y.txt` — the `a/`/`b/` prefixes of the captured
paths are kept — not `x.txt -> y.txt` as the claim states. -/
theorem C9_counterexample :
    (handleFileLines sentinelMatcher false c9aBlock).toOption =
      some [C_FILE ++ "a/x.txt -> b/y.txt".data ++ ":".data ++ C_END] ∧
    "a/x.txt -> b/y.txt".data ≠ "x.txt -> y.txt".data := by
  constructor
  · decide
  · decide

/-- C9 block C: unequal captured paths (`x` vs `x<TAB>`) whose displayed
forms coincide after trailing-tab stripping and the VSCode path adjustment. -/
def c9cBlock : List DLine :=
  [mkDLine "diff --git a/x b/x", mkDLine "--- x", mkDLine "+++ x\t"]

/-- C9 amended: `--- a/x.txt` / `+++ b/y.txt` renders as `a/x.txt ->
b/y.txt` — the `a/`/`b/` prefixes are kept.  In general the header renders
`oldPath -> newPath` when the two displayed paths differ and just the single
path when they are equal, where each displayed path is the corresponding
captured path with trailing tabs stripped and `./` prepended to slash-free
plain names.  Comparison happens on displayed, not captured, paths: the
unequal captures `x` and `x<TAB>` both display as `./x` and render the
single-path form. -/
theorem C9_amended_header_paths :
    (∀ (i : Bool) (oP nP : Str) (om nm : List Int) (l : SLine), l.kind = Kind.diff →
       renderLine i oP nP om nm l =
         .ok [C_FILE ++ (if oP = nP then nP else oP ++ " -> ".data ++ nP) ++
           ":".data ++ C_END]) ∧
    (∀ (st : AccState) (dl : DLine) (st1 : AccState) (sl : SLine), dl.kind = Kind.old →
       accumStep st dl = .ok (st1, sl) →
       st1.oldPath = vscode_path (rstripTabs dl.pathField) ∧ st1.newPath = st.newPath) ∧
    (∀ (st : AccState) (dl : DLine) (st1 : AccState) (sl : SLine), dl.kind = Kind.new →
       accumStep st dl = .ok (st1, sl) →
       st1.newPath = vscode_path (rstripTabs dl.pathField) ∧ st1.oldPath = st.oldPath) ∧
    (handleFileLines sentinelMatcher false c9aBlock).toOption =
      some [C_FILE ++ "a/x.txt -> b/y.txt".data ++ ":".data ++ C_END] ∧
    (handleFileLines sentinelMatcher false c9bBlock).toOption =
      some [C_FILE ++ "p/q".data ++ ":".data ++ C_END] ∧
    ((c9cBlock.getD 1 default).pathField ≠ (c9cBlock.getD 2 default).pathField ∧
     (handleFileLines sentinelMatcher false c9cBlock).toOption =
       some [C_FILE ++ "./x".data ++ ":".data ++ C_END]) := by
  refine ⟨?_, ?_, ?_, by decide, by decide, by decide, by decide⟩
  · intro i oP nP om nm l hk
    by_cases he : oP = nP <;> simp [renderLine, hk, he]
  · intro st dl st1 sl hk h
    simp [accumStep, hk, Prod.ext_iff] at h
    obtain ⟨h1, h2⟩ := h
    subst h1
    exact ⟨rfl, rfl⟩
  · intro st dl st1 sl hk h
    simp [accumStep, hk, Prod.ext_iff] at h
    obtain ⟨h1, h2⟩ := h
    subst h1
    exact ⟨rfl, rfl⟩

/-- Witness for C9 amended: the render rule at concrete differing displayed
paths, and the path transformation at the concrete marker `--- x<TAB>`
(capture `x<TAB>`, displayed `./x`). -/
theorem C9_amended_witness :
    (renderLine false ("a/q".data) ("b/r".data) [] []
       { kind := Kind.diff, rich := [], plain := [] }).toOption =
      some [C_FILE ++ "a/q -> b/r".data ++ ":".data ++ C_END] ∧
    ((accumStep initAcc (mkDLine "--- x\t")).toOption.getD (initAcc, default)).1.oldPath =
      "./x".data := by
  constructor
  · rw [C9_amended_header_paths.1 false ("a/q".data) ("b/r".data) [] []
      { kind := Kind.diff, rich := [], plain := [] } rfl]
    decide
  · rw [(C9_amended_header_paths.2.1 initAcc (mkDLine "--- x\t")
      ((accumStep initAcc (mkDLine "--- x\t")).toOption.getD (initAcc, default)).1
      ((accumStep initAcc (mkDLine "--- x\t")).toOption.getD (initAcc, default)).2
      (by decide) (by rfl)).1]
    decide

/-- C10 block: a file-header block followed by a `commit` line, as `git log
-p` produces (the accumulator flushes only at `diff` lines, so the commit
line of the next entry lands in the previous file's block). -/
def c10Block : List DLine :=
  [mkDLine "diff --git a/f b/f",
   mkDLine "commit aaaaaaaaaaaaaaaaaaaaaaaaaaaaaaaaaaaaaaaa"]

/-- C10: both lines classify successfully (`diff`, `commit`), yet block
processing reaches the final unhandled-kind branch and raises instead of
rendering — the renderer is not total over the classifier's kinds. -/
theorem C10_unhandled_kind :
    (c10Block.map (fun l => l.kind)) = [Kind.diff, Kind.commit] ∧
    exceptErr (handleFileLines sentinelMatcher false c10Block) =
      some "unhandled kind: commit" ∧
    exceptErr (handleFileLines sentinelMatcher true c10Block) =
      some "unhandled kind: commit" := by
  refine ⟨by decide, by decide, by decide⟩

/-! ### C6: the matching-blocks walk reconstructs every line -/

theorem set_oob : ∀ (f : List Str) (i : Nat) (v : Str), f.length ≤ i → f.set i v = f := by
  intro f
  induction f with
  | nil => intro i v _; simp
  | cons x xs ih =>
    intro i v h
    cases i with
    | zero => simp at h
    | succ j =>
      simp only [List.set]
      rw [ih j v (by simpa using h)]

theorem getD_set_self : ∀ (f : List Str) (i : Nat) (v : Str), i < f.length →
    (f.set i v).getD i [] = v := by
  intro f
  induction f with
  | nil => intro i v h; simp at h
  | cons x xs ih =>
    intro i v h
    cases i with
    | zero => rfl
    | succ j =>
      simp only [List.set, List.getD_cons_succ]
      exact ih j v (by simpa using h)

theorem appendAt_empty (f : List Str) (i : Nat) : appendAt f i [] = f := by
  unfold appendAt
  rw [List.append_nil]
  by_cases hi : i < f.length
  · induction f generalizing i with
    | nil => simp at hi
    | cons x xs ih =>
      cases i with
      | zero => rfl
      | succ j =>
        simp only [List.getD_cons_succ, List.set]
        rw [ih j (by simpa using hi)]
  · rw [set_oob f i _ (by omega)]

theorem appendAt_append (f : List Str) (i : Nat) (a b : Str) :
    appendAt (appendAt f i a) i b = appendAt f i (a ++ b) := by
  unfold appendAt
  by_cases hi : i < f.length
  · rw [getD_set_self f i _ hi, List.set_set, List.append_assoc]
  · rw [set_oob f i _ (by omega), set_oob f i _ (by omega), set_oob f i _ (by omega)]

theorem appendAt_at_middle : ∀ (pre : List Str) (f : Str) (r : List Str) (s : Str),
    appendAt (pre ++ f :: r) pre.length s = pre ++ (f ++ s) :: r := by
  intro pre
  induction pre with
  | nil => intro f r s; simp [appendAt, List.getD]
  | cons x xs ih =>
    intro f r s
    simp only [List.cons_append, List.length_cons, appendAt, List.getD_cons_succ, List.set]
    have := ih f r s
    unfold appendAt at this
    simp only [List.append_eq]
    rw [this]

/-- The walk over one tagged token stream: a newline token advances the line
index, any other token appends its highlight and (strange-char--rendered)
text to the current line. -/
def processTagged (frags : List Str) (li : Nat) : List (Str × Str) → List Str × Nat
  | [] => (frags, li)
  | (tok, hl) :: rest =>
    if tok = ['\n'] then processTagged frags (li + 1) rest
    else processTagged (appendAt frags li (hl ++ highlightStrange tok)) li rest

theorem appendGo_eq (hl : Str) : ∀ (toks : List Str) (frags : List Str) (li : Nat),
    appendGo frags li hl toks = processTagged frags li (toks.map (fun t => (t, hl))) := by
  intro toks
  induction toks with
  | nil => intro frags li; rfl
  | cons t rest ih =>
    intro frags li
    by_cases ht : t = ['\n']
    · simp [appendGo, processTagged, ht, ih]
    · simp [appendGo, processTagged, ht, ih]

theorem processTagged_append : ∀ (xs ys : List (Str × Str)) (frags : List Str) (li : Nat),
    processTagged frags li (xs ++ ys) =
      processTagged (processTagged frags li xs).1 (processTagged frags li xs).2 ys := by
  intro xs
  induction xs with
  | nil => intro ys frags li; rfl
  | cons p rest ih =>
    intro ys frags li
    obtain ⟨tok, hl⟩ := p
    by_cases ht : tok = ['\n'] <;> simp [processTagged, ht, ih]

/-- The tagged token stream produced by walking the matching blocks of one
side: gap tokens carry the side's change highlight, in-block tokens carry
the reset highlight. -/
def taggedOf (tokens : List Str) (hl : Str) : Nat → List (Nat × Nat) → List (Str × Str)
  | _, [] => []
  | d, (p, n) :: rest =>
    (sliceL tokens d p).map (fun t => (t, hl)) ++
      ((sliceL tokens p (p + n)).map (fun t => (t, C_RST_TOKEN)) ++
        taggedOf tokens hl (p + n) rest)

theorem walkSide_eq : ∀ (blocks : List (Nat × Nat)) (frags tokens : List Str)
    (li d : Nat) (hl : Str),
    walkSide frags tokens li d hl blocks =
      (processTagged frags li (taggedOf tokens hl d blocks)).1 := by
  intro blocks
  induction blocks with
  | nil => intro frags tokens li d hl; rfl
  | cons b rest ih =>
    intro frags tokens li d hl
    obtain ⟨p, n⟩ := b
    simp only [walkSide, append_frags, taggedOf]
    rw [appendGo_eq, appendGo_eq, processTagged_append, processTagged_append, ih]

theorem sideValidB_cons (n d p l : Nat) (b2 : Nat × Nat) (rest2 : List (Nat × Nat)) :
    sideValidB n d ((p, l) :: b2 :: rest2) =
      (decide (d ≤ p) && decide (p + l ≤ n) && sideValidB n (p + l) (b2 :: rest2)) := by
  show (decide (d ≤ p) && decide (p + l ≤ n) && sideValidB n (p + l) (b2 :: rest2)) = _
  rfl

theorem sideValidB_single (n d p l : Nat) :
    sideValidB n d [(p, l)] =
      (decide (d ≤ p) && decide (p + l ≤ n) && (decide (p = n) && decide (l = 0))) := by
  show (decide (d ≤ p) && decide (p + l ≤ n) && (decide (p = n) && decide (l = 0))) = _
  rfl

theorem sliceL_append_drop (xs : List Str) (a b : Nat) (hab : a ≤ b) :
    sliceL xs a b ++ xs.drop b = xs.drop a := by
  unfold sliceL
  have hd : xs.drop b = (xs.drop a).drop (b - a) := by
    rw [List.drop_drop]
    congr 1
    omega
  rw [hd, List.take_append_drop]

theorem sliceL_to_end (xs : List Str) (a : Nat) : sliceL xs a xs.length = xs.drop a := by
  unfold sliceL
  apply List.take_of_length_le
  simp

theorem taggedOf_cons (tokens : List Str) (hl : Str) (d p n : Nat)
    (rest : List (Nat × Nat)) :
    taggedOf tokens hl d ((p, n) :: rest) =
      (sliceL tokens d p).map (fun t => (t, hl)) ++
        ((sliceL tokens p (p + n)).map (fun t => (t, C_RST_TOKEN)) ++
          taggedOf tokens hl (p + n) rest) := rfl

theorem taggedOf_fst : ∀ (blocks : List (Nat × Nat)) (d : Nat) (tokens : List Str) (hl : Str),
    sideValidB tokens.length d blocks = true →
    (taggedOf tokens hl d blocks).map Prod.fst = tokens.drop d := by
  intro blocks
  induction blocks with
  | nil => intro d tokens hl hv; simp [sideValidB] at hv
  | cons b rest ih =>
    intro d tokens hl hv
    obtain ⟨p, n⟩ := b
    cases rest with
    | nil =>
      rw [sideValidB_single] at hv
      simp only [Bool.and_eq_true, decide_eq_true_eq] at hv
      obtain ⟨⟨hdp, hpn⟩, hp, hn⟩ := hv
      subst hp; subst hn
      rw [taggedOf_cons]
      simp only [List.map_append, List.map_map]
      rw [show (Prod.fst ∘ fun t : Str => (t, hl)) = id from rfl,
        show (Prod.fst ∘ fun t : Str => (t, C_RST_TOKEN)) = id from rfl]
      simp only [List.map_id]
      have hslice2 : sliceL tokens tokens.length (tokens.length + 0) = [] := by
        simp [sliceL]
      rw [hslice2, sliceL_to_end]
      simp [taggedOf]
    | cons b2 rest2 =>
      rw [sideValidB_cons] at hv
      simp only [Bool.and_eq_true, decide_eq_true_eq] at hv
      obtain ⟨⟨hdp, hpn⟩, hvrest⟩ := hv
      rw [taggedOf_cons]
      simp only [List.map_append, List.map_map]
      rw [show (Prod.fst ∘ fun t : Str => (t, hl)) = id from rfl,
        show (Prod.fst ∘ fun t : Str => (t, C_RST_TOKEN)) = id from rfl]
      simp only [List.map_id]
      rw [ih (p + n) tokens hl hvrest]
      rw [sliceL_append_drop tokens p (p + n) (by omega),
        sliceL_append_drop tokens d p hdp]

theorem taggedOf_snd : ∀ (blocks : List (Nat × Nat)) (d : Nat) (tokens : List Str)
    (hl : Str) (q : Str × Str), q ∈ taggedOf tokens hl d blocks →
    q.2 = hl ∨ q.2 = C_RST_TOKEN := by
  intro blocks
  induction blocks with
  | nil => intro d tokens hl q hq; simp [taggedOf] at hq
  | cons b rest ih =>
    intro d tokens hl q hq
    obtain ⟨p, n⟩ := b
    rw [taggedOf_cons] at hq
    simp only [List.mem_append] at hq
    rcases hq with h1 | h2 | h3
    · rcases List.mem_map.mp h1 with ⟨t, _, rfl⟩
      exact Or.inl rfl
    · rcases List.mem_map.mp h2 with ⟨t, _, rfl⟩
      exact Or.inr rfl
    · exact ih (p + n) tokens hl q h3

/-- A prefix string that the stripping substitution always removes whole. -/
def SgrStrips (h : Str) : Prop := ∀ l, stripSGR (h ++ l) = stripSGR l

theorem sgrStrips_of_body (body : Str) (hb : ∀ c ∈ body, c.isDigit ∨ c = ';') :
    SgrStrips (ESC :: '[' :: (body ++ ['m'])) := by
  intro l
  have h := stripSGR_sgr_prefix body l hb
  simpa using h

theorem sgrStrips_REM_TOKEN : SgrStrips C_REM_TOKEN := by
  have he : C_REM_TOKEN = ESC :: '[' :: ("38;5;211;1".data ++ ['m']) := by decide
  rw [he]
  exact sgrStrips_of_body _ (by decide)

theorem sgrStrips_ADD_TOKEN : SgrStrips C_ADD_TOKEN := by
  have he : C_ADD_TOKEN = ESC :: '[' :: ("38;5;121;1".data ++ ['m']) := by decide
  rw [he]
  exact sgrStrips_of_body _ (by decide)

theorem sgrStrips_RST_TOKEN : SgrStrips C_RST_TOKEN := by
  have he : C_RST_TOKEN = ESC :: '[' :: ("39;22".data ++ ['m']) := by decide
  rw [he]
  exact sgrStrips_of_body _ (by decide)

/-- Stripping the styled rendering of a run of clean tagged tokens recovers
exactly the concatenated token texts. -/
theorem strip_join_pieces : ∀ (tg : List (Str × Str)),
    (∀ q ∈ tg, (∀ c ∈ q.1, c ≠ ESC ∧ ¬ isStrangeChar c) ∧ SgrStrips q.2) →
    stripSGR ((tg.map (fun q => q.2 ++ highlightStrange q.1)).flatten) =
      (tg.map Prod.fst).flatten := by
  intro tg
  induction tg with
  | nil => intro _; rfl
  | cons q rest ih =>
    intro h
    obtain ⟨hq1, hq2⟩ := h q (by simp)
    simp only [List.map_cons, List.flatten_cons]
    have hhs : highlightStrange q.1 = q.1 :=
      highlightStrange_of_clean (fun c hc => (hq1 c hc).2)
    rw [hhs, List.append_assoc, hq2]
    rw [stripSGR_append_free _ (fun hesc => (hq1 ESC hesc).1 rfl)]
    rw [ih (fun r hr => h r (by simp [hr]))]

theorem processTagged_nonl : ∀ (tg : List (Str × Str)) (frags : List Str) (li : Nat),
    (∀ q ∈ tg, q.1 ≠ ['\n']) →
    processTagged frags li tg =
      (appendAt frags li ((tg.map (fun q => q.2 ++ highlightStrange q.1)).flatten), li) := by
  intro tg
  induction tg with
  | nil => intro frags li _; simp [processTagged, appendAt_empty]
  | cons q rest ih =>
    intro frags li h
    obtain ⟨tok, hl⟩ := q
    have ht : tok ≠ ['\n'] := by
      have := h (tok, hl) (by simp)
      simpa using this
    simp only [processTagged, if_neg ht]
    rw [ih _ _ (fun r hr => h r (by simp [hr]))]
    simp only [List.map_cons, List.flatten_cons]
    rw [appendAt_append]

theorem map_fst_split : ∀ (s : List Str) (tg : List (Str × Str)) (t : List Str),
    tg.map Prod.fst = s ++ t →
    ∃ tg1 tg2, tg = tg1 ++ tg2 ∧ tg1.map Prod.fst = s ∧ tg2.map Prod.fst = t := by
  intro s
  induction s with
  | nil =>
    intro tg t h
    exact ⟨[], tg, rfl, rfl, by simpa using h⟩
  | cons x s ih =>
    intro tg t h
    cases tg with
    | nil => simp at h
    | cons q tg' =>
      simp only [List.map_cons, List.cons_append, List.cons.injEq] at h
      obtain ⟨hx, hrest⟩ := h
      obtain ⟨tg1, tg2, hsplit, hf1, hf2⟩ := ih tg' t hrest
      exact ⟨q :: tg1, tg2, by rw [hsplit]; rfl,
        by simp [hf1, hx], hf2⟩

/-- Main distribution lemma: walking a tagged stream whose token text is the
flat tokenization of the given lines writes each line's styled rendering
into that line's slot, and stripping recovers every line exactly. -/
theorem processTagged_lines : ∀ (texts : List Str) (tagged : List (Str × Str)) (pre : List Str),
    tagged.map Prod.fst = tokenize_difflines texts →
    (∀ t ∈ texts, ∀ c ∈ t, c ≠ ESC ∧ ¬ isStrangeChar c ∧ c ≠ '\n') →
    (∀ q ∈ tagged, SgrStrips q.2) →
    ((processTagged (pre ++ texts.map (fun _ => ([] : Str))) pre.length tagged).1).map stripSGR
      = pre.map stripSGR ++ texts := by
  intro texts
  induction texts with
  | nil =>
    intro tagged pre hfst hclean hhl
    have htg : tagged = [] := by
      cases tagged with
      | nil => rfl
      | cons q t => simp [tokenize_difflines] at hfst
    subst htg
    simp [processTagged]
  | cons t ts ih =>
    intro tagged pre hfst hclean hhl
    obtain ⟨tg1, tg2, rfl, hf1, hf2⟩ :=
      map_fst_split (tokenize t) tagged (tokenizeRest ts) hfst
    have htclean : ∀ c ∈ t, c ≠ ESC ∧ ¬ isStrangeChar c ∧ c ≠ '\n' := hclean t (by simp)
    have htokmem : ∀ q ∈ tg1, ∀ c ∈ q.1, c ∈ t := by
      intro q hq c hc
      have hmem : q.1 ∈ tokenize t := by
        rw [← hf1]
        exact List.mem_map_of_mem _ hq
      exact (tokenize_mem t q.1 hmem).2 c hc
    have hnonl : ∀ q ∈ tg1, q.1 ≠ ['\n'] := by
      intro q hq he
      have hmem : '\n' ∈ t := htokmem q hq '\n' (by rw [he]; simp)
      exact (htclean '\n' hmem).2.2 rfl
    have hclean1 : ∀ q ∈ tg1, (∀ c ∈ q.1, c ≠ ESC ∧ ¬ isStrangeChar c) ∧ SgrStrips q.2 := by
      intro q hq
      exact ⟨fun c hc => ⟨(htclean c (htokmem q hq c hc)).1,
        (htclean c (htokmem q hq c hc)).2.1⟩, hhl q (List.mem_append_left _ hq)⟩
    rw [processTagged_append, processTagged_nonl tg1 _ _ hnonl]
    dsimp only
    set c1 := ((tg1.map (fun q => q.2 ++ highlightStrange q.1)).flatten) with hc1
    have hstrip1 : stripSGR c1 = t := by
      rw [hc1, strip_join_pieces tg1 hclean1, hf1, tokenize_join]
    have happ : appendAt (pre ++ (t :: ts).map (fun _ => ([] : Str))) pre.length c1
        = pre ++ c1 :: ts.map (fun _ => ([] : Str)) := by
      have h0 := appendAt_at_middle pre ([] : Str) (ts.map (fun _ => ([] : Str))) c1
      simpa using h0
    rw [happ]
    cases ts with
    | nil =>
      have htg2 : tg2 = [] := by
        cases tg2 with
        | nil => rfl
        | cons q t2 => simp [tokenizeRest] at hf2
      subst htg2
      simp only [processTagged, List.map_nil, List.append_nil, List.map_cons, List.map_append]
      rw [hstrip1]
    | cons t2 ts2 =>
      cases tg2 with
      | nil => simp [tokenizeRest] at hf2
      | cons q tg3 =>
        obtain ⟨qt, qh⟩ := q
        have hq : qt = ['\n'] ∧ tg3.map Prod.fst = tokenize t2 ++ tokenizeRest ts2 := by
          simpa [tokenizeRest] using hf2
        simp only [processTagged, if_pos hq.1]
        have hfr : pre ++ c1 :: (t2 :: ts2).map (fun _ => ([] : Str)) =
            (pre ++ [c1]) ++ (t2 :: ts2).map (fun _ => ([] : Str)) := by
          simp
        rw [hfr, show pre.length + 1 = (pre ++ [c1]).length by simp]
        rw [ih tg3 (pre ++ [c1]) hq.2
          (fun u hu => hclean u (List.mem_cons_of_mem _ hu))
          (fun r hr => hhl r (List.mem_append_right _ (List.mem_cons_of_mem _ hr)))]
        simp [hstrip1]

/-- One side of the token differ, end to end: under the matching-blocks
contract, stripping the styling escapes from each rewritten line recovers
the original line exactly — every token of the stream is emitted exactly
once and re-split onto its original line. -/
theorem walkSide_strip (texts : List Str) (blocks : List (Nat × Nat)) (hl : Str)
    (hhl : SgrStrips hl)
    (hv : sideValidB (tokenize_difflines texts).length 0 blocks = true)
    (hclean : ∀ t ∈ texts, ∀ c ∈ t, c ≠ ESC ∧ ¬ isStrangeChar c ∧ c ≠ '\n') :
    (walkSide (texts.map (fun _ => ([] : Str))) (tokenize_difflines texts) 0 0 hl blocks).map
      stripSGR = texts := by
  rw [walkSide_eq]
  have hfst := taggedOf_fst blocks 0 (tokenize_difflines texts) hl hv
  rw [List.drop_zero] at hfst
  have hhls : ∀ q ∈ taggedOf (tokenize_difflines texts) hl 0 blocks, SgrStrips q.2 := by
    intro q hq
    rcases taggedOf_snd blocks 0 (tokenize_difflines texts) hl q hq with h | h
    · rw [h]; exact hhl
    · rw [h]; exact sgrStrips_RST_TOKEN
  have hmain := processTagged_lines texts
    (taggedOf (tokenize_difflines texts) hl 0 blocks) [] hfst hclean hhls
  simpa using hmain

/-- C6 amended: for every chunk handed to the token differ whose line texts
contain no strange characters (C0 controls such as tab, DEL, C1, NBSP, SHY),
no raw ESC byte and no newline, the rewritten removed and added lines,
stripped of the inserted styling escapes, equal the original texts exactly:
no token is dropped or duplicated.  (The general claim fails — see the
counterexample — because strange characters are rewritten to visible escape
names, not merely styled.) -/
theorem C6_token_reconstruction (matcher : List Str → List Str → List (Nat × Nat × Nat))
    (remTexts addTexts : List Str) (hm : MatcherOK matcher)
    (hr : ∀ t ∈ remTexts, ∀ c ∈ t, c ≠ ESC ∧ ¬ isStrangeChar c ∧ c ≠ '\n')
    (ha : ∀ t ∈ addTexts, ∀ c ∈ t, c ≠ ESC ∧ ¬ isStrangeChar c ∧ c ≠ '\n') :
    ((add_token_diffs matcher remTexts addTexts).1).map stripSGR = remTexts ∧
    ((add_token_diffs matcher remTexts addTexts).2).map stripSGR = addTexts := by
  obtain ⟨hv1, hv2⟩ := hm (tokenize_difflines remTexts) (tokenize_difflines addTexts)
  unfold add_token_diffs
  dsimp only
  exact ⟨walkSide_strip remTexts _ _ sgrStrips_REM_TOKEN hv1 hr,
    walkSide_strip addTexts _ _ sgrStrips_ADD_TOKEN hv2 ha⟩

/-- C6 counterexample: a removed line consisting of one tab character.  The
tab is a strange character, so the token differ emits its visible escape
name `\t` (two characters) inside inverted-video styling; stripping the
styling escapes leaves `\t` as text, not the original tab — the rewritten
line does not equal the original. -/
theorem C6_counterexample :
    ((add_token_diffs sentinelMatcher ["\t".data] ["x".data]).1).map stripSGR ≠
      ["\t".data] ∧
    ((add_token_diffs sentinelMatcher ["\t".data] ["x".data]).1).map stripSGR =
      ["\\t".data] := by
  constructor
  · decide
  · decide

/-- Witness for C6 at a concrete clean chunk. -/
theorem C6_witness :
    ((add_token_diffs sentinelMatcher ["ab".data] ["cd".data]).1).map stripSGR =
      ["ab".data] ∧
    ((add_token_diffs sentinelMatcher ["ab".data] ["cd".data]).2).map stripSGR =
      ["cd".data] :=
  C6_token_reconstruction sentinelMatcher ["ab".data] ["cd".data]
    sentinelMatcher_ok (by decide) (by decide)
